import Mathlib

set_option maxRecDepth 8000

/- Shallow embedding of the verschemes version-scheme engine
   (src/verschemes/__init__.py and src/verschemes/python.py).

   Python values that flow through the engine are modelled in two
   levels: `FVal` is the decoded value of one field (an int, a string,
   or `None` for an unset field), and `PyVal` is the value of one
   segment (`None`, a scalar, or a flat tuple of field values — the
   engine never creates deeper nesting: `_validate_value` returns a
   scalar for a one-field segment and a tuple of scalars otherwise).
   Python exceptions are modelled by `PyErr`.  The regular expressions
   used by the engine are modelled by an explicit abstract-syntax tree
   `Rx` together with a fuelled backtracking matcher `mr` that mirrors
   the leftmost-greedy search order of the host regex engine
   (alternation tries the left branch first, `?` and `*` prefer the
   longer match, the first way the whole anchored pattern matches
   wins).  Comparison semantics follow Python 3: comparing `None` with
   an int, or values of unrelated kinds, raises `TypeError`, while
   `==` across unrelated kinds is `False`. -/

/-- Kinds of `TypeError` raised by the embedded code paths. -/
inductive TypeErrKind where
  | badConversion
  | tupleAssignment
  | unorderable
deriving Repr, DecidableEq

/-- Kinds of `ValueError` raised by the embedded code paths; each
constructor corresponds to one `raise ValueError(...)` site in the
source (the source distinguishes the error classes by message text). -/
inductive ValueErrKind where
  | duplicateFieldNames
  | tooManyValues (got expected : Nat)
  | patternMismatch (s : String)
  | underscoreName
  | notIdentifier
  | missingRequiredSegment
  | malformedVersionString (s : String)
  | tooManySegmentValues (got expected : Nat)
  | valuesRequired
  | intConversion (s : String)
deriving Repr, DecidableEq

/-- Python exceptions surfaced by the embedded code. -/
inductive PyErr where
  | valueError (k : ValueErrKind)
  | typeError (k : TypeErrKind)
  | keyError (k : String)
deriving Repr, DecidableEq

/-- The decoded value of a single segment field: `None` (unset), an
int, or a string. -/
inductive FVal where
  | none
  | int (n : Int)
  | str (s : String)
deriving Repr, DecidableEq

/-- The value of one segment of a version: `None` (unset), a scalar,
or a flat tuple of field values (for a multi-field segment). -/
inductive PyVal where
  | none
  | int (n : Int)
  | str (s : String)
  | tup (vs : List FVal)
deriving Repr, DecidableEq

/-- Python `value is None` on a segment value. -/
def PyVal.isNone : PyVal → Bool
  | .none => true
  | _ => false

/-- Python `value is None` on a field value. -/
def FVal.isNone : FVal → Bool
  | .none => true
  | _ => false

/-- Decimal digit character for a digit value below ten. -/
def digitChar (d : Nat) : Char := Char.ofNat (48 + d)

/-- Whether a character is a decimal digit. -/
def isDigitCh (c : Char) : Bool := 47 < c.toNat && c.toNat < 58

/-- Numeric value of a decimal digit character. -/
def digitVal (c : Char) : Nat := c.toNat - 48

/-- Fuelled big-endian decimal digits of a natural number (empty for 0). -/
def natCharsAux : Nat → Nat → List Char
  | 0, _ => []
  | _ + 1, 0 => []
  | fuel + 1, n => natCharsAux fuel (n / 10) ++ [digitChar (n % 10)]

/-- Decimal digits of a natural number, as rendered by Python `str`. -/
def natChars (n : Nat) : List Char := if n = 0 then ['0'] else natCharsAux (n + 1) n

/-- Python `str` of an int. -/
def intStr (n : Int) : String :=
  if n < 0 then String.mk ('-' :: natChars n.natAbs) else String.mk (natChars n.toNat)

/-- Value of a big-endian string of decimal digits. -/
def parseDigits (cs : List Char) : Nat := cs.foldl (fun a c => 10 * a + digitVal c) 0

/-- Python `int(s)` on a string: an optional sign followed by one or
more decimal digits; anything else raises `ValueError`. -/
def pyIntOfChars (cs : List Char) : Except PyErr Int :=
  match cs with
  | [] => .error (.valueError (.intConversion (String.mk cs)))
  | c :: rest =>
      if c = '-' then
        if !rest.isEmpty && rest.all isDigitCh then .ok (-(parseDigits rest : Int))
        else .error (.valueError (.intConversion (String.mk cs)))
      else if c = '+' then
        if !rest.isEmpty && rest.all isDigitCh then .ok (parseDigits rest : Int)
        else .error (.valueError (.intConversion (String.mk cs)))
      else
        if (c :: rest).all isDigitCh then .ok (parseDigits (c :: rest) : Int)
        else .error (.valueError (.intConversion (String.mk cs)))

/-- Python `repr` of a field value, used when a tuple is rendered. -/
def fRepr : FVal → String
  | .none => "None"
  | .int n => intStr n
  | .str s => String.singleton '\'' ++ s ++ String.singleton '\''

/-- Python `str` of a field value. -/
def fStr : FVal → String
  | .none => "None"
  | .int n => intStr n
  | .str s => s

/-- Python `str` of a segment value. -/
def pyStr : PyVal → String
  | .none => "None"
  | .int n => intStr n
  | .str s => s
  | .tup vs =>
      "(" ++ String.intercalate ", " (vs.map fRepr) ++
        (if vs.length = 1 then ",)" else ")")

/-- Python `==` on field values: structural within a kind, `False`
across kinds. -/
def fEq : FVal → FVal → Bool
  | .none, .none => true
  | .int a, .int b => decide (a = b)
  | .str a, .str b => decide (a = b)
  | _, _ => false

/-- Python `==` on lists of field values (tuple equality). -/
def fEqList : List FVal → List FVal → Bool
  | [], [] => true
  | a :: as, b :: bs => fEq a b && fEqList as bs
  | _, _ => false

/-- Python `==` on segment values. -/
def pyEq : PyVal → PyVal → Bool
  | .none, .none => true
  | .int a, .int b => decide (a = b)
  | .str a, .str b => decide (a = b)
  | .tup a, .tup b => fEqList a b
  | _, _ => false

/-- Python `==` on lists of segment values (the version tuples). -/
def pyEqList : List PyVal → List PyVal → Bool
  | [], [] => true
  | a :: as, b :: bs => pyEq a b && pyEqList as bs
  | _, _ => false

/-- Python `<` on lists of characters (string comparison). -/
def strLtB : List Char → List Char → Bool
  | [], [] => false
  | [], _ :: _ => true
  | _ :: _, [] => false
  | a :: as, b :: bs => if a = b then strLtB as bs else decide (a.toNat < b.toNat)

/-- Python 3 `<` on field values: defined within ints and within
strings; every other combination raises `TypeError`. -/
def fLt : FVal → FVal → Except PyErr Bool
  | .int a, .int b => .ok (decide (a < b))
  | .str a, .str b => .ok (strLtB a.data b.data)
  | _, _ => .error (.typeError .unorderable)

/-- Python `<` on lists of field values: lexicographic, comparing with
`==` first at each position as the CPython tuple comparison does, with
the shorter tuple smaller when one is a prefix of the other. -/
def fLtList : List FVal → List FVal → Except PyErr Bool
  | [], [] => .ok false
  | [], _ :: _ => .ok true
  | _ :: _, [] => .ok false
  | a :: as, b :: bs => if fEq a b then fLtList as bs else fLt a b

/-- Python 3 `<` on segment values. -/
def pyLt : PyVal → PyVal → Except PyErr Bool
  | .int a, .int b => .ok (decide (a < b))
  | .str a, .str b => .ok (strLtB a.data b.data)
  | .tup a, .tup b => fLtList a b
  | _, _ => .error (.typeError .unorderable)

/-- Python `<` on lists of segment values (the version tuples). -/
def pyLtList : List PyVal → List PyVal → Except PyErr Bool
  | [], [] => .ok false
  | [], _ :: _ => .ok true
  | _ :: _, [] => .ok false
  | a :: as, b :: bs => if pyEq a b then pyLtList as bs else pyLt a b

/-- Python `str.split` on a single-character separator. -/
def splitChar (sep : Char) : List Char → List (List Char)
  | [] => [[]]
  | c :: rest =>
    match splitChar sep rest with
    | [] => [[]]
    | p :: ps => if c = sep then [] :: p :: ps else (c :: p) :: ps

/-- Abstract syntax of the regular-expression fragment used by the
engine's patterns: character classes, concatenation, alternation,
greedy `?` and `*`, named capture groups (named `segmentN` at the
scheme level and by field name at the segment level; both are
identified here by a numeric index), and single-character positive and
negative lookbehind as used by the `serial` field of the Python
scheme. -/
inductive Rx where
  | eps
  | cls (cs : List Char) (neg : Bool)
  | lookbehind (cs : List Char) (neg : Bool)
  | cat (a b : Rx)
  | alt (a b : Rx)
  | opt (a : Rx)
  | star (a : Rx)
  | group (i : Nat) (a : Rx)
deriving Repr

/-- Concatenation of a list of patterns. -/
def Rx.cats : List Rx → Rx
  | [] => .eps
  | r :: rest => .cat r (Rx.cats rest)

/-- A literal string pattern, as produced by `re.escape` on a
separator. -/
def Rx.lit (s : String) : Rx := Rx.cats (s.data.map fun c => Rx.cls [c] false)

/-- Structural size of a pattern, used to pick a sufficient fuel. -/
def rxSize : Rx → Nat
  | .eps => 1
  | .cls _ _ => 1
  | .lookbehind _ _ => 1
  | .cat a b => rxSize a + rxSize b + 1
  | .alt a b => rxSize a + rxSize b + 1
  | .opt a => rxSize a + 1
  | .star a => rxSize a + 1
  | .group _ a => rxSize a + 1

/-- Capture environment: group index paired with the captured text;
the most recent capture of a group is listed first. -/
abbrev Caps := List (Nat × List Char)

/-- A matcher state: consumed input in reverse order (so lookbehind
inspects the head), remaining input, and captures so far. -/
abbrev MRes := List Char × List Char × Caps

/-- Fuelled backtracking matcher.  `mr fuel r pre rem caps` returns
every way `r` can match a prefix of `rem`, in the priority order of
the host regex engine: alternation yields left-branch matches first,
`?` and `*` yield longer matches first.  `pre` is the already-consumed
input, reversed, so that lookbehind can inspect the previous
character.  `*` only repeats its body after a non-empty match, which
is how the host engine avoids looping on an empty match; the fuel
strictly decreases on every recursive call and merely needs to exceed
the backtracking depth. -/
def mr : Nat → Rx → List Char → List Char → Caps → List MRes
  | 0, _, _, _, _ => []
  | _ + 1, .eps, pre, rem, caps => [(pre, rem, caps)]
  | _ + 1, .cls cs neg, pre, rem, caps =>
      match rem with
      | [] => []
      | c :: rest => if cs.contains c != neg then [(c :: pre, rest, caps)] else []
  | _ + 1, .lookbehind cs neg, pre, rem, caps =>
      (if (match pre with
           | [] => false
           | c :: _ => cs.contains c) != neg
       then [(pre, rem, caps)] else [])
  | fuel + 1, .cat a b, pre, rem, caps =>
      (mr fuel a pre rem caps).flatMap fun res => mr fuel b res.1 res.2.1 res.2.2
  | fuel + 1, .alt a b, pre, rem, caps =>
      mr fuel a pre rem caps ++ mr fuel b pre rem caps
  | fuel + 1, .opt a, pre, rem, caps =>
      mr fuel a pre rem caps ++ [(pre, rem, caps)]
  | fuel + 1, .star a, pre, rem, caps =>
      ((mr fuel a pre rem caps).filter fun res => pre.length < res.1.length).flatMap
        (fun res => mr fuel (.star a) res.1 res.2.1 res.2.2) ++ [(pre, rem, caps)]
  | fuel + 1, .group i a, pre, rem, caps =>
      (mr fuel a pre rem caps).map fun res =>
        (res.1, res.2.1, (i, (res.1.take (res.1.length - pre.length)).reverse) :: res.2.2)

/-- Last captured text of a group, `none` when the group never
participated in the match. -/
def capsLookup (caps : Caps) (i : Nat) : Option (List Char) :=
  (caps.find? fun p => p.1 == i).map (·.2)

/-- Fuel that exceeds the backtracking depth of any anchored match. -/
def mrFuel (r : Rx) (s : List Char) : Nat := (s.length + 2) * (rxSize r + 2)

/-- Match a whole string against an anchored pattern (the engine
always compiles patterns wrapped in `^...$` and uses `re.match`): the
first complete match in backtracking order wins; returns its capture
environment. -/
def reFullMatch (r : Rx) (s : List Char) : Option Caps :=
  ((mr (mrFuel r s) r [] s []).filter fun res => res.2.1.isEmpty).head?.map
    (fun res => res.2.2)

/-- The underlying type of a field value (`int` and `str` are the
supported kinds). -/
inductive FieldType where
  | int
  | str
deriving Repr, DecidableEq

/-- Embeds `SegmentField`: immutable metadata for one field of a
segment.  The `re_pattern` string of the source is carried as its
abstract syntax tree. -/
structure SegmentField where
  type : FieldType
  name : String
  re_pattern : Rx
  render : FVal → String

/-- The pattern `0|[1-9][0-9]*` of the default segment field. -/
def rxInt : Rx :=
  Rx.alt (Rx.cls ['0'] false)
    (Rx.cat (Rx.cls ['1', '2', '3', '4', '5', '6', '7', '8', '9'] false)
      (Rx.star (Rx.cls ['0', '1', '2', '3', '4', '5', '6', '7', '8', '9'] false)))

/-- Embeds `DEFAULT_SEGMENT_FIELD = SegmentField()` with the defaults
`(int, 'value', '0|[1-9][0-9]*', str)`. -/
def DEFAULT_SEGMENT_FIELD : SegmentField :=
  ⟨FieldType.int, "value", rxInt, fStr⟩

/-- Embeds `x.type(y)`: conversion of an already-decoded field value
through the field's underlying type, as the host language would do it
(`int` of an int is itself, `int` of a string parses it, `int` of
`None` raises `TypeError`; `str` always succeeds). -/
def fieldConv (t : FieldType) (v : FVal) : Except PyErr FVal :=
  match t, v with
  | .int, .int n => .ok (.int n)
  | .int, .str s => (pyIntOfChars s.data).map .int
  | .int, .none => .error (.typeError .badConversion)
  | .str, v => .ok (.str (fStr v))

/-- Embeds the `value_string` construction of
`SegmentDefinition._validate_value` for a non-string value: each
field's `render` applied to `None` for a missing value and to
`x.type(y)` otherwise, concatenated in field order (a conversion
error propagates). -/
def renderFieldValues : List SegmentField → List FVal → Except PyErr String
  | [], _ => .ok ""
  | _ :: _, [] => .ok ""
  | f :: fs, v :: vs => do
      let w ← (match v with
        | .none => pure FVal.none
        | v => fieldConv f.type v)
      let rest ← renderFieldValues fs vs
      pure (f.render w ++ rest)

/-- The anchored segment pattern of `_validate_value`: each field's
pattern wrapped in a capture group named by the field (here indexed by
field position), concatenated in order. -/
def fieldGroups : Nat → List SegmentField → Rx
  | _, [] => .eps
  | i, f :: rest => .cat (.group i f.re_pattern) (fieldGroups (i + 1) rest)

/-- Embeds the decoding loop of `_validate_value`: each field's
captured group becomes `None` when it captured the empty string and
the field type is not `str`, and is converted through the field's
type otherwise (a group that did not participate is `None` in Python,
and `type(None)` raises for `int`). -/
def decodeFields (caps : Caps) : Nat → List SegmentField → Except PyErr (List FVal)
  | _, [] => .ok []
  | i, f :: rest => do
      let v ← (match capsLookup caps i with
        | some cs =>
            if cs.isEmpty && f.type != FieldType.str then pure FVal.none
            else fieldConv f.type (.str (String.mk cs))
        | Option.none => fieldConv f.type .none)
      let vs ← decodeFields caps (i + 1) rest
      pure (v :: vs)

/-- A field value seen as a segment value, as when `_validate_value`
returns `result[0]` for a single-field segment. -/
def fToPy : FVal → PyVal
  | .none => .none
  | .int n => .int n
  | .str s => .str s

/-- Embeds `SegmentDefinition._validate_value(value, fields)`: a
string is matched directly; any other value becomes a list of field
values, is length-checked, padded with `None`, rendered to text, and
the text is then matched against the anchored concatenation of the
field patterns; captures are decoded through the field types; a
single-field segment yields the bare scalar, a multi-field segment a
tuple.  The anchored-match-and-decode tail is split out as
`validateString`. -/
def validateString (vs : String) (fields : List SegmentField) : Except PyErr PyVal :=
  match reFullMatch (fieldGroups 0 fields) vs.data with
  | Option.none => .error (.valueError (.patternMismatch vs))
  | some caps => do
      let rs ← decodeFields caps 0 fields
      pure (match fields, rs with
        | [_], [r] => fToPy r
        | _, _ => .tup rs)

/-- The `value_string` of `_validate_value` for a non-string value:
the value becomes a list of field values (a scalar becomes a singleton
list), is length-checked, padded with `None`, and rendered to text. -/
def valueStringOf (value : PyVal) (fields : List SegmentField) : Except PyErr String :=
  match value with
  | .str s => pure s
  | .tup l =>
      if l.length > fields.length then
        .error (.valueError (.tooManyValues l.length fields.length))
      else renderFieldValues fields (l ++ List.replicate (fields.length - l.length) .none)
  | .none =>
      if 1 > fields.length then .error (.valueError (.tooManyValues 1 fields.length))
      else renderFieldValues fields ([.none] ++ List.replicate (fields.length - 1) .none)
  | .int n =>
      if 1 > fields.length then .error (.valueError (.tooManyValues 1 fields.length))
      else renderFieldValues fields ([.int n] ++ List.replicate (fields.length - 1) .none)

def validateValueRaw (value : PyVal) (fields : List SegmentField) : Except PyErr PyVal := do
  let vs : String ← valueStringOf value fields
  validateString vs fields

/-- Embeds `SegmentDefinition`: immutable metadata for one segment. -/
structure SegmentDefinition where
  optional : Bool
  default : PyVal
  separator : String
  fields : List SegmentField
  name : Option String

/-- Embeds `DEFAULT_SEGMENT_DEFINITION = SegmentDefinition()`. -/
def DEFAULT_SEGMENT_DEFINITION : SegmentDefinition :=
  ⟨false, .none, ".", [DEFAULT_SEGMENT_FIELD], Option.none⟩

/-- Embeds the `required` property: a segment value is required when
the segment is not optional and has no default. -/
def SegmentDefinition.required (d : SegmentDefinition) : Bool :=
  !d.optional && d.default.isNone

/-- Embeds `str.isidentifier` (restricted to ASCII identifiers). -/
def pyIsIdentifier (s : String) : Bool :=
  match s.data with
  | [] => false
  | c :: rest => (c.isAlpha || c = '_') && rest.all fun c => c.isAlphanum || c = '_'

/-- Whether the duplicate-field-name check of `SegmentDefinition.__new__`
fires: the set of field names is smaller than the list of fields. -/
def hasDuplicateFieldNames (fields : List SegmentField) : Bool :=
  !(fields.map SegmentField.name).Nodup

/-- Whether a segment name is truthy (Python `if segment.name`). -/
def nameTruthy : Option String → Bool
  | some s => !s.isEmpty
  | Option.none => false

/-- Embeds `SegmentDefinition.__new__`: validates field-name
uniqueness, validates a non-`None` default against the fields, and
checks the segment name; a falsy (empty) name is stored as `None`. -/
def SegmentDefinition.new (optional : Bool) (default : PyVal) (separator : String)
    (fields : List SegmentField) (name : Option String) :
    Except PyErr SegmentDefinition := do
  if hasDuplicateFieldNames fields then
    .error (.valueError .duplicateFieldNames)
  let default ←
    if default.isNone then pure default
    else validateValueRaw default fields
  if nameTruthy name then do
    let s := name.getD ""
    if s.startsWith "_" then .error (.valueError .underscoreName)
    if !pyIsIdentifier s then .error (.valueError .notIdentifier)
  pure ⟨optional, default, separator, fields, if nameTruthy name then name else Option.none⟩

/-- Embeds `SegmentDefinition.validate_value`: `None` is rejected only
for a required segment and otherwise returned unchanged (the default
is not substituted here); any other value goes through
`_validate_value`. -/
def SegmentDefinition.validate_value (d : SegmentDefinition) (value : PyVal) :
    Except PyErr PyVal :=
  if value.isNone then
    if !d.optional && d.default.isNone then
      .error (.valueError .missingRequiredSegment)
    else .ok value
  else validateValueRaw value d.fields

/-- The element of a tuple value at a field index (Python `value[i]`;
only reached with tuples of the right width on validated data). -/
def tupGet : PyVal → Nat → FVal
  | .tup vs, i => vs.getD i .none
  | .none, _ => .none
  | .int n, _ => .int n
  | .str s, _ => .str s

/-- Embeds `SegmentDefinition.render`: one field renders the bare
value, several fields render their tuple elements in order. -/
def SegmentDefinition.render (d : SegmentDefinition) (value : PyVal) : String :=
  match d.fields with
  | [f] => f.render (tupGet value 0)
  | fs => String.join ((List.range fs.length).map fun i =>
      ((fs.getD i DEFAULT_SEGMENT_FIELD).render (tupGet value i)))

/-- The arguments of `Version.__new__`: a single version string, or a
sequence of positional segment values. -/
inductive VersionArgs where
  | str (s : String)
  | vals (l : List PyVal)

/-- The intermediate `args` sequence of `Version.__new__` before
keyword processing: `match.groups()` is a tuple (immutable), while
`string.split` and `list(args)` produce lists (mutable). -/
inductive ArgSeq where
  | pytuple (l : List PyVal)
  | pylist (l : List PyVal)

/-- The segment definition governing index `i`: the declared one for
an explicit scheme, the default segment definition for the implicit
unbounded scheme. -/
def segDefAt (defs : List SegmentDefinition) (i : Nat) : SegmentDefinition :=
  if defs.isEmpty then DEFAULT_SEGMENT_DEFINITION
  else defs.getD i DEFAULT_SEGMENT_DEFINITION

/-- Embeds the compiled whole-version grammar of `Version._get_re`:
for each segment, the escaped separator (made optional when every
earlier segment is non-required) for a non-first segment, then the
segment's pattern in a capture group named by its index, the whole
piece wrapped as optional when the segment is not required. -/
def buildRe (defs : List SegmentDefinition) : Rx :=
  (List.range defs.length).foldl
    (fun acc i =>
      let d := defs.getD i DEFAULT_SEGMENT_DEFINITION
      let seg0 : Rx := Rx.group i (Rx.cats (d.fields.map SegmentField.re_pattern))
      let seg1 : Rx :=
        if i > 0 then
          let sep := Rx.lit d.separator
          let sep := if (defs.take i).all (fun x => !x.required) then Rx.opt sep else sep
          Rx.cat sep seg0
        else seg0
      let seg2 : Rx := if !d.required then Rx.opt seg1 else seg1
      Rx.cat acc seg2)
    Rx.eps

/-- Embeds the first phase of `Version.__new__`: a single string
argument is parsed through the compiled grammar (explicit scheme) or
split on the default separator (implicit scheme), any other argument
list is length-checked and padded with `None` up to the declared
segment count.  The grammar path leaves the matched groups as a tuple;
the other paths produce lists. -/
def versionPhase1 (defs : List SegmentDefinition) : VersionArgs → Except PyErr ArgSeq
  | .str s =>
      if defs.isEmpty then
        .ok (.pylist ((splitChar '.' s.data).map fun cs => .str (String.mk cs)))
      else
        match reFullMatch (buildRe defs) s.data with
        | Option.none => .error (.valueError (.malformedVersionString s))
        | some caps =>
            .ok (.pytuple ((List.range defs.length).map fun i =>
              match capsLookup caps i with
              | some cs => PyVal.str (String.mk cs)
              | Option.none => PyVal.none))
  | .vals l =>
      if defs.isEmpty then
        if l.isEmpty then .error (.valueError .valuesRequired)
        else .ok (.pylist l)
      else if l.length > defs.length then
        .error (.valueError (.tooManySegmentValues l.length defs.length))
      else .ok (.pylist (l ++ List.replicate (defs.length - l.length) PyVal.none))

/-- Embeds the `segment_indices` dict of `Version.__new__`: the index
of the last segment bearing a given truthy name (a dict comprehension
keeps the last binding). -/
def segmentIndexOf (defs : List SegmentDefinition) (k : String) : Option Nat :=
  (List.range defs.length).reverse.findSome? fun i =>
    let d := defs.getD i DEFAULT_SEGMENT_DEFINITION
    if nameTruthy d.name && d.name.getD "" == k then some i else Option.none

/-- Embeds the keyword-processing loop of `Version.__new__`: an
unknown name raises `KeyError`; a known name is assigned by index into
`args`, which raises `TypeError` when `args` is still the tuple
returned by `match.groups`. -/
def applyKwargs (defs : List SegmentDefinition) :
    ArgSeq → List (String × PyVal) → Except PyErr ArgSeq
  | a, [] => .ok a
  | a, (k, v) :: rest =>
      match segmentIndexOf defs k with
      | Option.none => .error (.keyError k)
      | some i =>
          match a with
          | .pylist l => applyKwargs defs (.pylist (l.set i v)) rest
          | .pytuple _ => .error (.typeError .tupleAssignment)

/-- Embeds the validation loop of `Version.__new__`: each argument is
validated by its segment definition (the default definition for the
implicit scheme). -/
def validateArgs (defs : List SegmentDefinition) : Nat → List PyVal → Except PyErr (List PyVal)
  | _, [] => .ok []
  | i, v :: rest => do
      let w ← (segDefAt defs i).validate_value v
      let ws ← validateArgs defs (i + 1) rest
      pure (w :: ws)

/-- The list underlying an argument sequence. -/
def ArgSeq.toList : ArgSeq → List PyVal
  | .pytuple l => l
  | .pylist l => l

/-- Embeds `Version.__new__` (with the default no-op intersegment
`validate` hook): phase one, keyword processing, per-segment
validation; the result is the tuple of validated raw segment
values. -/
def versionNew (defs : List SegmentDefinition) (args : VersionArgs)
    (kwargs : List (String × PyVal)) : Except PyErr (List PyVal) := do
  let a ← versionPhase1 defs args
  let a ← applyKwargs defs a kwargs
  validateArgs defs 0 a.toList

/-- Embeds the cooking of `Version.__getitem__` at one index: the raw
value, with the segment's default substituted when it is `None`. -/
def cookedAt (defs : List SegmentDefinition) (raw : List PyVal) (i : Nat) : PyVal :=
  let v := raw.getD i PyVal.none
  if v.isNone then (segDefAt defs i).default else v

/-- Embeds `self[:]`: the full tuple of cooked segment values. -/
def cooked (defs : List SegmentDefinition) (raw : List PyVal) : List PyVal :=
  (List.range raw.length).map (cookedAt defs raw)

/-- Embeds `Version.__eq__` between two versions (both `Version`
instances): Python tuple equality of the cooked tuples. -/
def versionEqSame (defs : List SegmentDefinition) (a b : List PyVal) : Bool :=
  pyEqList (cooked defs a) (cooked defs b)

/-- Embeds `Version.__lt__` between two versions (both `Version`
instances): Python tuple comparison of the cooked tuples, which in
Python 3 raises `TypeError` when it reaches a pair of cooked values of
unrelated kinds. -/
def versionLtSame (defs : List SegmentDefinition) (a b : List PyVal) :
    Except PyErr Bool :=
  pyLtList (cooked defs a) (cooked defs b)

/-- Embeds `Version._render_exclude_defaults_callback` with its default
whole-tuple scope: `False` when any raw value from the index to the
end of the scope is set, otherwise `True` exactly when the segment is
optional and its raw value is unset. -/
def renderExcludeDefaultsCallback (defs : List SegmentDefinition) (raw : List PyVal)
    (index : Nat) : Bool :=
  if index < raw.length then
    if (List.range raw.length).any
        (fun i => index ≤ i && !(raw.getD i PyVal.none).isNone) then
      false
    else (segDefAt defs index).optional && (raw.getD index PyVal.none).isNone
  else (segDefAt defs index).optional && (raw.getD index PyVal.none).isNone

/-- A rendering callback, as invoked with the version and a segment
index. -/
abbrev RenderCallback := List PyVal → Nat → Bool

/-- Embeds the per-segment decision of `Version.render`: a segment
whose cooked value is `None` while it is optional is always skipped;
otherwise the include callbacks may force inclusion and, failing that,
the exclude callbacks may force exclusion. -/
def renderDecision (defs : List SegmentDefinition) (raw : List PyVal)
    (includeCbs excludeCbs : List RenderCallback) (i : Nat) : Bool :=
  if (segDefAt defs i).optional && (cookedAt defs raw i).isNone then false
  else if includeCbs.any fun cb => cb raw i then true
  else !(excludeCbs.any fun cb => cb raw i)

/-- Embeds `Version.render`: walk the segments in order, append each
included segment's rendering, preceded by its separator when output
has already been produced.  With `exclude_defaults` the built-in
default-exclusion callback is appended to the exclude callbacks. -/
def versionRender (defs : List SegmentDefinition) (raw : List PyVal)
    (exclude_defaults : Bool) (includeCbs excludeCbs : List RenderCallback) : String :=
  let excludeCbs := excludeCbs ++
    (if exclude_defaults then [renderExcludeDefaultsCallback defs] else [])
  (List.range raw.length).foldl
    (fun result i =>
      if renderDecision defs raw includeCbs excludeCbs i then
        (if result.length > 0 then result ++ (segDefAt defs i).separator else result)
          ++ (segDefAt defs i).render (cookedAt defs raw i)
      else result)
    ""

/-- Embeds `Version.__str__`: `render()` with its default arguments. -/
def versionStr (defs : List SegmentDefinition) (raw : List PyVal) : String :=
  versionRender defs raw true [] []

/-- A foreign Python type used as the other operand of a comparison:
its constructor applied to the version object itself, its constructor
applied to a string, and its `==` and `<` operators. -/
structure OtherType (α : Type) where
  ofVersion : List PyVal → Except PyErr α
  ofString : String → Except PyErr α
  beq : α → α → Bool
  blt : α → α → Except PyErr Bool

/-- Whether `except (TypeError, ValueError)` catches an error. -/
def isCaught : PyErr → Bool
  | .valueError _ => true
  | .typeError _ => true
  | .keyError _ => false

/-- Embeds `Version._coerce_to_type`: first `type_(self)`, then
`type_(str(self))`, each with `TypeError` and `ValueError` suppressed;
`None` (here `Option.none`) when both attempts fail. -/
def coerceToType {α : Type} (T : OtherType α) (defs : List SegmentDefinition)
    (raw : List PyVal) : Except PyErr (Option α) :=
  match T.ofVersion raw with
  | .ok r => .ok (some r)
  | .error e =>
      if isCaught e then
        match T.ofString (versionStr defs raw) with
        | .ok r => .ok (some r)
        | .error e2 => if isCaught e2 then .ok Option.none else .error e2
      else .error e

/-- Embeds `Version.__eq__` against a non-`Version` operand: `False`
when the coercion fails, the coerced value's `==` otherwise. -/
def versionEqOther {α : Type} (T : OtherType α) (defs : List SegmentDefinition)
    (raw : List PyVal) (other : α) : Except PyErr Bool :=
  match coerceToType T defs raw with
  | .ok Option.none => .ok false
  | .ok (some r) => .ok (T.beq r other)
  | .error e => .error e

/-- Embeds `Version.__lt__` against a non-`Version` operand: the inner
`Option` is `none` for Python's `NotImplemented`. -/
def versionLtOther {α : Type} (T : OtherType α) (defs : List SegmentDefinition)
    (raw : List PyVal) (other : α) : Except PyErr (Option Bool) :=
  match coerceToType T defs raw with
  | .ok Option.none => .ok Option.none
  | .ok (some r) => (T.blt r other).map some
  | .error e => .error e

/-- Embeds `PythonMajorVersion.SEGMENT_DEFINITIONS`. -/
def pythonMajorDefs : List SegmentDefinition := [DEFAULT_SEGMENT_DEFINITION]

/-- Embeds `PythonMinorVersion.SEGMENT_DEFINITIONS`. -/
def pythonMinorDefs : List SegmentDefinition :=
  pythonMajorDefs ++ [DEFAULT_SEGMENT_DEFINITION]

/-- Embeds `PythonMicroVersion.SEGMENT_DEFINITIONS`: the micro segment
is optional. -/
def pythonMicroDefs : List SegmentDefinition :=
  pythonMinorDefs ++ [⟨true, .none, ".", [DEFAULT_SEGMENT_FIELD], Option.none⟩]

/-- The `releaselevel` field of `PythonVersion` with pattern `[+abc]`. -/
def releaselevelField : SegmentField :=
  ⟨FieldType.str, "releaselevel", Rx.cls ['+', 'a', 'b', 'c'] false, fStr⟩

/-- The `serial` field of `PythonVersion` with pattern
`(?<=[+])|(?<![+])(?:0|[1-9][0-9]*)` and render
`lambda x: "" if x is None else str(x)`. -/
def serialField : SegmentField :=
  ⟨FieldType.int, "serial",
    Rx.alt (Rx.lookbehind ['+'] false) (Rx.cat (Rx.lookbehind ['+'] true) rxInt),
    fun x => match x with
      | .none => ""
      | v => fStr v⟩

/-- Embeds `PythonVersion.SEGMENT_DEFINITIONS`: major, minor, optional
micro, and the optional two-field suffix segment with empty
separator. -/
def pythonVersionDefs : List SegmentDefinition :=
  pythonMicroDefs ++ [⟨true, .none, "", [releaselevelField, serialField], Option.none⟩]


/-- A two-segment scheme whose second segment has an empty separator:
`(SegmentDefinition(), SegmentDefinition(separator=''))`. -/
def twoSegEmptySepDefs : List SegmentDefinition :=
  [DEFAULT_SEGMENT_DEFINITION, ⟨false, .none, "", [DEFAULT_SEGMENT_FIELD], Option.none⟩]

/-- A one-segment scheme whose segment is named `major`. -/
def namedMajorDefs : List SegmentDefinition :=
  [⟨false, .none, ".", [DEFAULT_SEGMENT_FIELD], some "major"⟩]


/-- Unfolding lemma for the `Except` monad: binding an error. -/
@[simp] theorem errorBind {α β : Type} (e : PyErr) (f : α → Except PyErr β) :
    (Except.error e >>= f) = Except.error e := rfl

/-- Unfolding lemma for the `Except` monad: binding a success. -/
@[simp] theorem okBind {α β : Type} (a : α) (f : α → Except PyErr β) :
    (Except.ok a >>= f) = f a := rfl

/-- Unfolding lemma for the `Except` monad: `pure` is `ok`. -/
@[simp] theorem purePyOk {α : Type} (a : α) :
    (pure a : Except PyErr α) = Except.ok a := rfl

/-- Claim C7: validating an absent (`None`) value fails with the
missing-required-segment error exactly when the segment is required
(not optional and without default), and otherwise returns the absent
value unchanged, with no default substituted at this layer. -/
theorem claim_C7 (d : SegmentDefinition) :
    d.validate_value .none =
      (if d.required then .error (.valueError .missingRequiredSegment)
       else .ok .none) := rfl

/-- Claim C8: more positional values than declared segments fail with
the too-many-values error; zero values under the unbounded default
scheme fail with the values-required error; within bounds, missing
trailing positions behave exactly as explicitly supplied `None`s. -/
theorem claim_C8 :
    (∀ (defs : List SegmentDefinition) (l : List PyVal) (kwargs : List (String × PyVal)),
       defs ≠ [] → l.length > defs.length →
       versionNew defs (.vals l) kwargs =
         .error (.valueError (.tooManySegmentValues l.length defs.length)))
    ∧ (∀ kwargs : List (String × PyVal),
       versionNew [] (.vals []) kwargs = .error (.valueError .valuesRequired))
    ∧ (∀ (defs : List SegmentDefinition) (l : List PyVal) (kwargs : List (String × PyVal)),
       defs ≠ [] → l.length ≤ defs.length →
       versionNew defs (.vals l) kwargs =
         versionNew defs (.vals (l ++ List.replicate (defs.length - l.length) PyVal.none))
           kwargs) := by
  refine ⟨?_, ?_, ?_⟩
  · intro defs l kwargs hne hgt
    simp [versionNew, versionPhase1, List.isEmpty_iff, hne, hgt]
  · intro kwargs
    simp [versionNew, versionPhase1]
  · intro defs l kwargs hne hle
    have hlen : (l ++ List.replicate (defs.length - l.length) PyVal.none).length
        = defs.length := by
      simp [List.length_append, List.length_replicate]
      omega
    simp only [versionNew, versionPhase1, List.isEmpty_iff, hne, if_neg hne]
    rw [if_neg (by omega : ¬ l.length > defs.length),
        if_neg (by omega : ¬ (l ++ List.replicate (defs.length - l.length) PyVal.none).length > defs.length)]
    rw [hlen]
    simp

/-- Claim C8 witness: concrete instances of all three parts. -/
theorem claim_C8_witness :
    versionNew pythonMinorDefs (.vals [.int 1, .int 2, .int 3]) [] =
      .error (.valueError (.tooManySegmentValues 3 2)) ∧
    versionNew [] (.vals []) [] = .error (.valueError .valuesRequired) ∧
    versionNew pythonMinorDefs (.vals [.int 1]) [] =
      versionNew pythonMinorDefs (.vals [.int 1, PyVal.none]) [] := by
  refine ⟨?_, ?_, ?_⟩
  · exact claim_C8.1 pythonMinorDefs [.int 1, .int 2, .int 3] [] (by simp [pythonMinorDefs, pythonMajorDefs]) (by simp [pythonMinorDefs, pythonMajorDefs])
  · exact claim_C8.2.1 []
  · exact claim_C8.2.2 pythonMinorDefs [.int 1] [] (by simp [pythonMinorDefs, pythonMajorDefs]) (by simp [pythonMinorDefs, pythonMajorDefs])

/-- Claim C9: a `SegmentDefinition` declared with a default value that
fails validation against its own fields is rejected at declaration
time, so every successfully constructed definition has either no
default or a default that validated successfully. -/
theorem claim_C9 :
    (∀ (opt : Bool) (dft : PyVal) (sep : String) (fields : List SegmentField)
       (nm : Option String) (e : PyErr),
       dft.isNone = false → validateValueRaw dft fields = .error e →
       ∃ e', SegmentDefinition.new opt dft sep fields nm = .error e')
    ∧ (∀ (opt : Bool) (dft : PyVal) (sep : String) (fields : List SegmentField)
       (nm : Option String) (d : SegmentDefinition),
       SegmentDefinition.new opt dft sep fields nm = .ok d →
       d.default.isNone = true ∨ validateValueRaw dft fields = .ok d.default) := by
  constructor
  · intro opt dft sep fields nm e hnn hval
    by_cases hdup : hasDuplicateFieldNames fields = true
    · exact ⟨.valueError .duplicateFieldNames, by simp [SegmentDefinition.new, hdup]⟩
    · refine ⟨e, ?_⟩
      simp [SegmentDefinition.new, hdup, hnn, hval]
  · intro opt dft sep fields nm d hok
    by_cases hdup : hasDuplicateFieldNames fields = true
    · simp [SegmentDefinition.new, hdup] at hok
    by_cases hnt : nameTruthy nm = true <;>
      by_cases hsw : (nm.getD "").startsWith "_" = true <;>
      by_cases hid : pyIsIdentifier (nm.getD "") = true <;>
      by_cases hnn : dft.isNone = true <;>
      first
      | (left
         simp only [SegmentDefinition.new, hdup, Bool.false_eq_true, if_false, hnn,
           if_true, okBind, hnt, hsw, hid, errorBind, pure] at hok
         first
         | (exact Except.noConfusion hok)
         | (injection hok with h
            subst h
            simpa using hnn))
      | (right
         rcases hval : validateValueRaw dft fields with e | w
         · simp [SegmentDefinition.new, hdup, hnn, hval] at hok
         · simp only [SegmentDefinition.new, hdup, Bool.false_eq_true, if_false, hnn,
             hval, okBind, hnt, hsw, hid, errorBind, pure] at hok
           first
           | (exact Except.noConfusion hok)
           | (injection hok with h
              subst h
              rfl))

/-- Claim C9 witness: a default of `-1` fails the default integer
field's pattern, so the declaration is rejected; and a declaration
accepted with default `7` stores the validated default. -/
theorem claim_C9_witness :
    (∃ e', SegmentDefinition.new false (.int (-1)) "." [DEFAULT_SEGMENT_FIELD]
        Option.none = .error e') ∧
    (DEFAULT_SEGMENT_DEFINITION.default.isNone = true ∨
      validateValueRaw PyVal.none [DEFAULT_SEGMENT_FIELD] =
        .ok DEFAULT_SEGMENT_DEFINITION.default) := by
  constructor
  · exact claim_C9.1 false (.int (-1)) "." [DEFAULT_SEGMENT_FIELD] Option.none
      (.valueError (.patternMismatch "-1")) rfl rfl
  · exact claim_C9.2 false PyVal.none "." [DEFAULT_SEGMENT_FIELD] Option.none
      DEFAULT_SEGMENT_DEFINITION rfl

/-- Claim C10: constructing a version of a bounded scheme from a
single string argument together with a keyword argument naming a
segment fails with a `TypeError`, because the tuple returned by
`match.groups()` is never converted to a mutable list before keyword
values are assigned by index. -/
theorem claim_C10 (defs : List SegmentDefinition) (s : String) (caps : Caps)
    (k : String) (i : Nat) (v : PyVal) (rest : List (String × PyVal))
    (hne : defs ≠ [])
    (hmatch : reFullMatch (buildRe defs) s.data = some caps)
    (hname : segmentIndexOf defs k = some i) :
    versionNew defs (.str s) ((k, v) :: rest) =
      .error (.typeError .tupleAssignment) := by
  simp [versionNew, versionPhase1, List.isEmpty_iff, hne, hmatch, applyKwargs, hname]

/-- Claim C10 witness: the one-segment scheme named `major`, the
matching string `3`, and the keyword `major`. -/
theorem claim_C10_witness :
    versionNew namedMajorDefs (.str "3") [("major", .int 5)] =
      .error (.typeError .tupleAssignment) :=
  claim_C10 namedMajorDefs "3" [(0, ['3'])] "major" 0 (.int 5) []
    (by simp [namedMajorDefs]) rfl rfl

/-- Claim C4: comparison of a version against a non-`Version` operand
first attempts to construct the operand's type directly from the
version; only if that fails (with a caught error) does it construct
the operand's type from the version's rendered string; the coerced
result is then compared against the operand. -/
theorem claim_C4 {α : Type} (T : OtherType α) (defs : List SegmentDefinition)
    (raw : List PyVal) (o : α) :
    (∀ r, T.ofVersion raw = .ok r →
        versionEqOther T defs raw o = .ok (T.beq r o) ∧
        versionLtOther T defs raw o = (T.blt r o).map some)
    ∧ (∀ e r, T.ofVersion raw = .error e → isCaught e = true →
        T.ofString (versionStr defs raw) = .ok r →
        versionEqOther T defs raw o = .ok (T.beq r o) ∧
        versionLtOther T defs raw o = (T.blt r o).map some) := by
  constructor
  · intro r h
    constructor <;> simp [versionEqOther, versionLtOther, coerceToType, h]
  · intro e r h hc h2
    constructor <;> simp [versionEqOther, versionLtOther, coerceToType, h, hc, h2]

/-- A foreign type whose constructor accepts the version tuple
directly. -/
def otherTypePair : OtherType (List PyVal) :=
  ⟨fun r => .ok r, fun _ => .error (.typeError .badConversion), pyEqList, pyLtList⟩

/-- A foreign type whose constructor rejects the version object but
accepts its rendered string. -/
def otherTypeStr : OtherType String :=
  ⟨fun _ => .error (.typeError .badConversion), fun s => .ok s,
    fun a b => decide (a = b), fun a b => .ok (strLtB a.data b.data)⟩

/-- A foreign type that can be constructed neither from the version
nor from its rendered string. -/
def otherTypeNever : OtherType Unit :=
  ⟨fun _ => .error (.typeError .badConversion),
    fun _ => .error (.valueError .valuesRequired), fun _ _ => true, fun _ _ => .ok false⟩

/-- Claim C4 witness: both coercion paths at concrete inputs. -/
theorem claim_C4_witness :
    versionEqOther otherTypePair [] [.int 1] [.int 1] = .ok true ∧
    versionEqOther otherTypeStr [] [.int 1] "1" = .ok true := by
  constructor
  · exact ((claim_C4 otherTypePair [] [.int 1] [.int 1]).1 [.int 1] rfl).1.trans rfl
  · exact ((claim_C4 otherTypeStr [] [.int 1] "1").2 (.typeError .badConversion) "1"
      rfl rfl rfl).1.trans rfl

/-- Claim C5: when the operand's type can be coerced neither from the
version nor from its rendered string (both attempts failing with
caught errors), equality is `False` and ordering answers
`NotImplemented` (not-comparable) rather than an arbitrary boolean or
an unrelated raised error. -/
theorem claim_C5 {α : Type} (T : OtherType α) (defs : List SegmentDefinition)
    (raw : List PyVal) (o : α) (e1 e2 : PyErr)
    (h1 : T.ofVersion raw = .error e1) (hc1 : isCaught e1 = true)
    (h2 : T.ofString (versionStr defs raw) = .error e2) (hc2 : isCaught e2 = true) :
    versionEqOther T defs raw o = .ok false ∧
    versionLtOther T defs raw o = .ok Option.none := by
  constructor <;> simp [versionEqOther, versionLtOther, coerceToType, h1, hc1, h2, hc2]

/-- Claim C5 witness: a foreign type rejecting both coercions. -/
theorem claim_C5_witness :
    versionEqOther otherTypeNever [] [.int 1] () = .ok false ∧
    versionLtOther otherTypeNever [] [.int 1] () = .ok Option.none :=
  claim_C5 otherTypeNever [] [.int 1] () (.typeError .badConversion)
    (.valueError .valuesRequired) rfl rfl rfl rfl

/-- Claim C6: under the four-segment Python scheme, the string
`3.4.1c1` constructs the cooked tuple `(3, 4, 1, ('c', 1))`, the
string `3.4.1+` constructs `(3, 4, 1, ('+', None))` (the empty serial
capture with integer kind decodes to absent), and `3.4.1` constructs
`(3, 4, 1, None)`. -/
theorem claim_C6 :
    (versionNew pythonVersionDefs (.str "3.4.1c1") [] =
       .ok [.int 3, .int 4, .int 1, .tup [.str "c", .int 1]] ∧
     cooked pythonVersionDefs [.int 3, .int 4, .int 1, .tup [.str "c", .int 1]] =
       [.int 3, .int 4, .int 1, .tup [.str "c", .int 1]]) ∧
    (versionNew pythonVersionDefs (.str "3.4.1+") [] =
       .ok [.int 3, .int 4, .int 1, .tup [.str "+", .none]] ∧
     cooked pythonVersionDefs [.int 3, .int 4, .int 1, .tup [.str "+", .none]] =
       [.int 3, .int 4, .int 1, .tup [.str "+", .none]]) ∧
    (versionNew pythonVersionDefs (.str "3.4.1") [] =
       .ok [.int 3, .int 4, .int 1, .none] ∧
     cooked pythonVersionDefs [.int 3, .int 4, .int 1, .none] =
       [.int 3, .int 4, .int 1, .none]) :=
  ⟨⟨rfl, rfl⟩, ⟨rfl, rfl⟩, ⟨rfl, rfl⟩⟩

/-- `isNone` characterisation for segment values. -/
theorem pyIsNone_iff (v : PyVal) : v.isNone = true ↔ v = PyVal.none := by
  cases v <;> simp [PyVal.isNone]

/-- Claim C3: the built-in default-exclusion predicate fires exactly
when the segment is optional with an unset raw value and no segment
from that index onwards has a raw value; consequently, under the
default rendering policy a trailing unset-optional segment is not
included, while an unset optional segment with a default that is
followed by a later set segment is included and rendered with its
default value. -/
theorem claim_C3 (defs : List SegmentDefinition) (raw : List PyVal) (i : Nat) :
    (i < raw.length →
       (renderExcludeDefaultsCallback defs raw i = true ↔
         ((segDefAt defs i).optional = true ∧ raw.getD i PyVal.none = PyVal.none ∧
          ∀ j, i < j → j < raw.length → raw.getD j PyVal.none = PyVal.none)))
    ∧ ((segDefAt defs i).optional = true →
       (∀ j, i ≤ j → j < raw.length → raw.getD j PyVal.none = PyVal.none) →
       renderDecision defs raw [] [renderExcludeDefaultsCallback defs] i = false)
    ∧ ((segDefAt defs i).optional = true →
       raw.getD i PyVal.none = PyVal.none →
       (segDefAt defs i).default.isNone = false →
       (∃ j, i < j ∧ j < raw.length ∧ raw.getD j PyVal.none ≠ PyVal.none) →
       renderDecision defs raw [] [renderExcludeDefaultsCallback defs] i = true ∧
         cookedAt defs raw i = (segDefAt defs i).default) := by
  refine ⟨?_, ?_, ?_⟩
  · intro hi
    rw [renderExcludeDefaultsCallback, if_pos hi]
    by_cases hany :
        ((List.range raw.length).any fun j => i ≤ j && !(raw.getD j PyVal.none).isNone) = true
    · rw [if_pos hany]
      simp only [List.any_eq_true, List.mem_range, Bool.and_eq_true, decide_eq_true_eq,
        Bool.not_eq_true'] at hany
      obtain ⟨j, hjlen, hij, hset⟩ := hany
      constructor
      · intro h; cases h
      · rintro ⟨hopt, hni, hall⟩
        exfalso
        rcases Nat.lt_or_ge i j with hlt | hge
        · rw [hall j hlt hjlen] at hset; simp [PyVal.isNone] at hset
        · have hj : j = i := by omega
          rw [hj, hni] at hset; simp [PyVal.isNone] at hset
    · rw [if_neg hany]
      simp only [List.any_eq_true, List.mem_range, Bool.and_eq_true, decide_eq_true_eq,
        Bool.not_eq_true', not_exists, not_and] at hany
      push_neg at hany
      constructor
      · intro h
        simp only [Bool.and_eq_true] at h
        obtain ⟨hopt, hni⟩ := h
        refine ⟨hopt, (pyIsNone_iff _).mp hni, ?_⟩
        intro j hij hjlen
        have h3 : (raw.getD j PyVal.none).isNone = true := by
          have h4 := hany j hjlen (by omega)
          simpa [List.getD] using h4
        exact (pyIsNone_iff _).mp h3
      · rintro ⟨hopt, hni, _⟩
        rw [hopt, (pyIsNone_iff _).mpr hni]
        rfl
  · intro hopt hall
    by_cases hcn : (cookedAt defs raw i).isNone = true
    · simp [renderDecision, hopt, hcn]
    · have hraw : (raw.getD i PyVal.none).isNone = true := by
        by_cases hi : i < raw.length
        · rw [hall i (le_refl i) hi]; rfl
        · rw [List.getD_eq_default _ _ (by omega)]; rfl
      have hcb : renderExcludeDefaultsCallback defs raw i = true := by
        rw [renderExcludeDefaultsCallback]
        have hno : ¬ ((List.range raw.length).any
            fun j => i ≤ j && !(raw.getD j PyVal.none).isNone) = true := by
          simp only [List.any_eq_true, List.mem_range, Bool.and_eq_true, decide_eq_true_eq,
            Bool.not_eq_true', not_exists, not_and]
          intro j hjlen hij
          rw [hall j hij hjlen]; simp [PyVal.isNone]
        by_cases hi : i < raw.length
        · rw [if_pos hi, if_neg hno, hopt, hraw]; rfl
        · rw [if_neg hi, hopt, hraw]; rfl
      simp [renderDecision, hopt, hcn, hcb]
  · rintro hopt hni hdef ⟨j, hij, hjlen, hset⟩
    have hcook : cookedAt defs raw i = (segDefAt defs i).default := by
      rw [cookedAt, hni]; rfl
    have hcb : renderExcludeDefaultsCallback defs raw i = false := by
      rw [renderExcludeDefaultsCallback, if_pos (by omega : i < raw.length)]
      rw [if_pos ?hyes]
      case hyes =>
        simp only [List.any_eq_true, List.mem_range, Bool.and_eq_true, decide_eq_true_eq,
          Bool.not_eq_true']
        refine ⟨j, hjlen, by omega, ?_⟩
        rcases h2 : raw.getD j PyVal.none with _ | _ | _ | _ <;> simp_all [PyVal.isNone]
    refine ⟨?_, hcook⟩
    simp [renderDecision, hcook, hdef, hcb]

/-- The scheme of spec scenario 1: two required integer segments and
an optional third with default 0. -/
def scenario1Defs : List SegmentDefinition :=
  [DEFAULT_SEGMENT_DEFINITION, DEFAULT_SEGMENT_DEFINITION,
   ⟨true, .int 0, ".", [DEFAULT_SEGMENT_FIELD], Option.none⟩]

/-- A scheme with an optional defaulted segment in the middle. -/
def midDefaultDefs : List SegmentDefinition :=
  [DEFAULT_SEGMENT_DEFINITION,
   ⟨true, .int 0, ".", [DEFAULT_SEGMENT_FIELD], Option.none⟩,
   DEFAULT_SEGMENT_DEFINITION]

/-- Claim C3 witness: the predicate fires on a trailing unset optional
segment, which the default policy then omits; an unset optional
segment with a default followed by a set segment is included and
cooked to its default. -/
theorem claim_C3_witness :
    renderExcludeDefaultsCallback scenario1Defs [.int 3, .int 4, .none] 2 = true ∧
    renderDecision scenario1Defs [.int 3, .int 4, .none] []
      [renderExcludeDefaultsCallback scenario1Defs] 2 = false ∧
    (renderDecision midDefaultDefs [.int 1, .none, .int 2] []
      [renderExcludeDefaultsCallback midDefaultDefs] 1 = true ∧
     cookedAt midDefaultDefs [.int 1, .none, .int 2] 1 = .int 0) := by
  refine ⟨?_, ?_, ?_⟩
  · exact ((claim_C3 scenario1Defs [.int 3, .int 4, .none] 2).1 (by decide)).mpr
      ⟨rfl, rfl, by
        intro j h1 h2
        simp only [List.length_cons, List.length_nil] at h2
        omega⟩
  · exact (claim_C3 scenario1Defs [.int 3, .int 4, .none] 2).2.1 rfl
      (by intro j h1 h2
          simp only [List.length_cons, List.length_nil] at h2
          have hj : j = 2 := by omega
          subst hj; rfl)
  · have h := (claim_C3 midDefaultDefs [.int 1, .none, .int 2] 1).2.2 rfl rfl rfl
      ⟨2, by omega, by simp, by decide⟩
    exact ⟨h.1, h.2.trans rfl⟩

/-- Python `==` on field values is structural equality. -/
theorem fEq_iff_eq (a b : FVal) : fEq a b = true ↔ a = b := by
  cases a <;> cases b <;> simp [fEq]

/-- Python `==` on field-value tuples is structural equality. -/
theorem fEqList_iff_eq (a b : List FVal) : fEqList a b = true ↔ a = b := by
  induction a generalizing b with
  | nil => cases b <;> simp [fEqList]
  | cons x xs ih => cases b <;> simp [fEqList, fEq_iff_eq, ih]

/-- Python `==` on segment values is structural equality. -/
theorem pyEq_iff_eq (a b : PyVal) : pyEq a b = true ↔ a = b := by
  cases a <;> cases b <;> simp [pyEq, fEqList_iff_eq]

/-- Python `==` on version tuples is structural equality. -/
theorem pyEqList_iff_eq (a b : List PyVal) : pyEqList a b = true ↔ a = b := by
  induction a generalizing b with
  | nil => cases b <;> simp [pyEqList]
  | cons x xs ih => cases b <;> simp [pyEqList, pyEq_iff_eq, ih]

/-- String comparison is irreflexive. -/
theorem strLtB_irrefl (a : List Char) : strLtB a a = false := by
  induction a with
  | nil => rfl
  | cons c cs ih => simp [strLtB, ih]

/-- String comparison is asymmetric and total off the diagonal. -/
theorem strLtB_asymm (a b : List Char) (h : a ≠ b) : strLtB a b = !strLtB b a := by
  induction a generalizing b with
  | nil => cases b with
    | nil => exact absurd rfl h
    | cons y ys => simp [strLtB]
  | cons x xs ih =>
    cases b with
    | nil => simp [strLtB]
    | cons y ys =>
      by_cases hxy : x = y
      · subst hxy
        have hne : xs ≠ ys := fun hh => h (by rw [hh])
        simp [strLtB, ih ys hne]
      · have hn : x.toNat ≠ y.toNat := by
          intro hh
          exact hxy (by rw [← Char.ofNat_toNat x, ← Char.ofNat_toNat y, hh])
        have hyx : y ≠ x := fun hh => hxy hh.symm
        simp only [strLtB, if_neg hxy, if_neg hyx]
        rcases Nat.lt_trichotomy x.toNat y.toNat with hlt | heq | hgt
        · simp [hlt, Nat.not_lt.mpr (Nat.le_of_lt hlt)]
        · exact absurd heq hn
        · simp [hgt, Nat.not_lt.mpr (Nat.le_of_lt hgt)]

/-- Trichotomy for Python `<` on field values when both directions
succeed. -/
theorem fLt_trichotomy {a b : FVal} {p q : Bool}
    (hab : fLt a b = .ok p) (hba : fLt b a = .ok q) :
    (a = b ∧ p = false ∧ q = false) ∨ (a ≠ b ∧ p = !q) := by
  cases a <;> cases b <;> simp [fLt] at hab hba
  · rename_i x y
    by_cases hxy : x = y
    · subst hxy; left; simp [← hab, ← hba]
    · right
      refine ⟨by simp [hxy], ?_⟩
      subst hab; subst hba
      rcases Int.lt_trichotomy x y with hlt | heq | hgt
      · simp [hlt, not_lt.mpr (le_of_lt hlt)]
      · exact absurd heq hxy
      · simp [hgt, not_lt.mpr (le_of_lt hgt)]
  · rename_i x y
    by_cases hxy : x = y
    · subst hxy; left; simp [← hab, ← hba, strLtB_irrefl]
    · right
      refine ⟨by simp [hxy], ?_⟩
      subst hab; subst hba
      have hd : x.data ≠ y.data := fun hh => hxy (by
        cases x; cases y; exact congrArg String.mk hh)
      rw [strLtB_asymm _ _ hd]

/-- Trichotomy for Python `<` on field-value tuples when both
directions succeed. -/
theorem fLtList_trichotomy {a b : List FVal} {p q : Bool}
    (hab : fLtList a b = .ok p) (hba : fLtList b a = .ok q) :
    (a = b ∧ p = false ∧ q = false) ∨ (a ≠ b ∧ p = !q) := by
  induction a generalizing b with
  | nil =>
    cases b with
    | nil =>
      simp [fLtList] at hab hba
      exact Or.inl ⟨rfl, hab, hba⟩
    | cons y ys =>
      simp [fLtList] at hab hba
      exact Or.inr ⟨by simp, by simp [hab, hba]⟩
  | cons x xs ih =>
    cases b with
    | nil =>
      simp [fLtList] at hab hba
      exact Or.inr ⟨by simp, by simp [hab, hba]⟩
    | cons y ys =>
      by_cases hxy : x = y
      · subst hxy
        rw [fLtList, if_pos ((fEq_iff_eq x x).mpr rfl)] at hab
        rw [fLtList, if_pos ((fEq_iff_eq x x).mpr rfl)] at hba
        rcases ih hab hba with ⟨heq, hp, hq⟩ | ⟨hne, hpq⟩
        · left; simp [heq, hp, hq]
        · right; exact ⟨by simp [hne], hpq⟩
      · have h1 : fEq x y = false := by
          rcases h : fEq x y with _ | _
          · rfl
          · exact absurd ((fEq_iff_eq x y).mp h) hxy
        have h2 : fEq y x = false := by
          rcases h : fEq y x with _ | _
          · rfl
          · exact absurd ((fEq_iff_eq y x).mp h).symm hxy
        rw [fLtList, h1] at hab
        rw [fLtList, h2] at hba
        simp only [Bool.false_eq_true, if_false] at hab hba
        rcases fLt_trichotomy hab hba with ⟨heq, _, _⟩ | ⟨_, hpq⟩
        · exact absurd heq hxy
        · right; exact ⟨by simp [hxy], hpq⟩

/-- Trichotomy for Python `<` on segment values when both directions
succeed. -/
theorem pyLt_trichotomy {a b : PyVal} {p q : Bool}
    (hab : pyLt a b = .ok p) (hba : pyLt b a = .ok q) :
    (a = b ∧ p = false ∧ q = false) ∨ (a ≠ b ∧ p = !q) := by
  cases a <;> cases b <;> simp [pyLt] at hab hba
  · rename_i x y
    by_cases hxy : x = y
    · subst hxy; left; simp [← hab, ← hba]
    · right
      refine ⟨by simp [hxy], ?_⟩
      subst hab; subst hba
      rcases Int.lt_trichotomy x y with hlt | heq | hgt
      · simp [hlt, not_lt.mpr (le_of_lt hlt)]
      · exact absurd heq hxy
      · simp [hgt, not_lt.mpr (le_of_lt hgt)]
  · rename_i x y
    by_cases hxy : x = y
    · subst hxy; left; simp [← hab, ← hba, strLtB_irrefl]
    · right
      refine ⟨by simp [hxy], ?_⟩
      subst hab; subst hba
      have hd : x.data ≠ y.data := fun hh => hxy (by
        cases x; cases y; exact congrArg String.mk hh)
      rw [strLtB_asymm _ _ hd]
  · rename_i x y
    rcases fLtList_trichotomy hab hba with ⟨heq, hp, hq⟩ | ⟨hne, hpq⟩
    · left; simp [heq, hp, hq]
    · right; exact ⟨by simp [hne], hpq⟩

/-- Trichotomy for Python `<` on version tuples when both directions
succeed. -/
theorem pyLtList_trichotomy {a b : List PyVal} {p q : Bool}
    (hab : pyLtList a b = .ok p) (hba : pyLtList b a = .ok q) :
    (a = b ∧ p = false ∧ q = false) ∨ (a ≠ b ∧ p = !q) := by
  induction a generalizing b with
  | nil =>
    cases b with
    | nil =>
      simp [pyLtList] at hab hba
      exact Or.inl ⟨rfl, hab, hba⟩
    | cons y ys =>
      simp [pyLtList] at hab hba
      exact Or.inr ⟨by simp, by simp [hab, hba]⟩
  | cons x xs ih =>
    cases b with
    | nil =>
      simp [pyLtList] at hab hba
      exact Or.inr ⟨by simp, by simp [hab, hba]⟩
    | cons y ys =>
      by_cases hxy : x = y
      · subst hxy
        rw [pyLtList, if_pos ((pyEq_iff_eq x x).mpr rfl)] at hab
        rw [pyLtList, if_pos ((pyEq_iff_eq x x).mpr rfl)] at hba
        rcases ih hab hba with ⟨heq, hp, hq⟩ | ⟨hne, hpq⟩
        · left; simp [heq, hp, hq]
        · right; exact ⟨by simp [hne], hpq⟩
      · have h1 : pyEq x y = false := by
          rcases h : pyEq x y with _ | _
          · rfl
          · exact absurd ((pyEq_iff_eq x y).mp h) hxy
        have h2 : pyEq y x = false := by
          rcases h : pyEq y x with _ | _
          · rfl
          · exact absurd ((pyEq_iff_eq y x).mp h).symm hxy
        rw [pyLtList, h1] at hab
        rw [pyLtList, h2] at hba
        simp only [Bool.false_eq_true, if_false] at hab hba
        rcases pyLt_trichotomy hab hba with ⟨heq, _, _⟩ | ⟨_, hpq⟩
        · exact absurd heq hxy
        · right; exact ⟨by simp [hxy], hpq⟩

/-- Claim C1 (amended): for two versions of the same scheme whose
ordering comparisons both succeed (no `TypeError` from comparing
cooked values of unrelated kinds, such as `None` against an int),
exactly one of `a < b`, `a == b`, `b < a` holds; ordering is the
lexicographic comparison of the full cooked-value tuples with segment
0 most significant. -/
theorem claim_C1 (defs : List SegmentDefinition) (a b : List PyVal) (p q : Bool)
    (hab : versionLtSame defs a b = .ok p) (hba : versionLtSame defs b a = .ok q) :
    (p = true ∧ versionEqSame defs a b = false ∧ q = false) ∨
    (p = false ∧ versionEqSame defs a b = true ∧ q = false) ∨
    (p = false ∧ versionEqSame defs a b = false ∧ q = true) := by
  have hab' : pyLtList (cooked defs a) (cooked defs b) = .ok p := hab
  have hba' : pyLtList (cooked defs b) (cooked defs a) = .ok q := hba
  rcases pyLtList_trichotomy hab' hba' with ⟨heq, hp, hq⟩ | ⟨hne, hpq⟩
  · right; left
    exact ⟨hp, (pyEqList_iff_eq _ _).mpr heq, hq⟩
  · have he : versionEqSame defs a b = false := by
      rcases h : versionEqSame defs a b with _ | _
      · rfl
      · exact absurd ((pyEqList_iff_eq _ _).mp h) hne
    cases hq0 : q with
    | false =>
      left
      refine ⟨?_, he, rfl⟩
      rw [hpq, hq0]; rfl
    | true =>
      right; right
      refine ⟨?_, he, rfl⟩
      rw [hpq, hq0]; rfl

/-- Claim C1 counterexample: under the three-segment Python micro
scheme, `PythonMicroVersion(3, 4)` and `PythonMicroVersion(3, 4, 1)`
are valid constructions whose cooked tuples are `(3, 4, None)` and
`(3, 4, 1)`; equality is `False` and both ordering directions raise
`TypeError` in Python 3, so none of `a < b`, `a == b`, `b < a`
holds. -/
theorem claim_C1_counterexample :
    versionNew pythonMicroDefs (.vals [.int 3, .int 4]) [] =
      .ok [.int 3, .int 4, .none] ∧
    versionNew pythonMicroDefs (.vals [.int 3, .int 4, .int 1]) [] =
      .ok [.int 3, .int 4, .int 1] ∧
    versionEqSame pythonMicroDefs [.int 3, .int 4, .none] [.int 3, .int 4, .int 1]
      = false ∧
    versionLtSame pythonMicroDefs [.int 3, .int 4, .none] [.int 3, .int 4, .int 1]
      = .error (.typeError .unorderable) ∧
    versionLtSame pythonMicroDefs [.int 3, .int 4, .int 1] [.int 3, .int 4, .none]
      = .error (.typeError .unorderable) :=
  ⟨rfl, rfl, rfl, rfl, rfl⟩

/-- Claim C1 witness: the amended trichotomy applied to the versions
`3.3` and `3.4` of the Python minor scheme. -/
theorem claim_C1_witness :
    (true = true ∧
       versionEqSame pythonMinorDefs [.int 3, .int 3] [.int 3, .int 4] = false ∧
       false = false) ∨
    (true = false ∧
       versionEqSame pythonMinorDefs [.int 3, .int 3] [.int 3, .int 4] = true ∧
       false = false) ∨
    (true = false ∧
       versionEqSame pythonMinorDefs [.int 3, .int 3] [.int 3, .int 4] = false ∧
       false = true) :=
  claim_C1 pythonMinorDefs [.int 3, .int 3] [.int 3, .int 4] true false rfl rfl

/-- The language of a pattern: which character lists a pattern can
consume.  Lookbehind consumes nothing (its context condition is
dropped here; this relation is only used to bound what a match can
have consumed). -/
inductive RxLang : Rx → List Char → Prop where
  | eps : RxLang .eps []
  | cls {cs : List Char} {neg : Bool} {c : Char} :
      (cs.contains c != neg) = true → RxLang (.cls cs neg) [c]
  | lookbehind {cs : List Char} {neg : Bool} : RxLang (.lookbehind cs neg) []
  | cat {a b : Rx} {l1 l2 : List Char} :
      RxLang a l1 → RxLang b l2 → RxLang (.cat a b) (l1 ++ l2)
  | altL {a b : Rx} {l : List Char} : RxLang a l → RxLang (.alt a b) l
  | altR {a b : Rx} {l : List Char} : RxLang b l → RxLang (.alt a b) l
  | optSome {a : Rx} {l : List Char} : RxLang a l → RxLang (.opt a) l
  | optNone {a : Rx} : RxLang (.opt a) []
  | starNil {a : Rx} : RxLang (.star a) []
  | starCons {a : Rx} {l1 l2 : List Char} :
      RxLang a l1 → RxLang (.star a) l2 → RxLang (.star a) (l1 ++ l2)
  | group {i : Nat} {a : Rx} {l : List Char} : RxLang a l → RxLang (.group i a) l

/-- Soundness of the matcher: every result consumed a prefix of the
remaining input that lies in the pattern's language. -/
theorem mr_sound : ∀ (fuel : Nat) (r : Rx) (pre rem : List Char) (caps : Caps)
    (res : MRes), res ∈ mr fuel r pre rem caps →
    ∃ cs, res.1 = cs.reverse ++ pre ∧ rem = cs ++ res.2.1 ∧ RxLang r cs := by
  intro fuel
  induction fuel with
  | zero => intro r pre rem caps res h; simp [mr] at h
  | succ f ih =>
    intro r pre rem caps res h
    cases r with
    | eps =>
      simp only [mr, List.mem_singleton] at h
      subst h
      exact ⟨[], by simp, by simp, .eps⟩
    | cls cs neg =>
      cases rem with
      | nil => simp [mr] at h
      | cons c rest =>
        simp only [mr] at h
        by_cases hc : (cs.contains c != neg) = true
        · rw [if_pos hc] at h
          simp only [List.mem_singleton] at h
          subst h
          exact ⟨[c], by simp, by simp, .cls hc⟩
        · rw [if_neg hc] at h; simp at h
    | lookbehind cs neg =>
      simp only [mr] at h
      split at h
      · simp only [List.mem_singleton] at h
        subst h
        exact ⟨[], by simp, by simp, .lookbehind⟩
      · simp at h
    | cat a b =>
      simp only [mr, List.mem_flatMap] at h
      obtain ⟨mid, hmid, hres⟩ := h
      obtain ⟨cs1, h1, h2, hl1⟩ := ih a pre rem caps mid hmid
      obtain ⟨cs2, h3, h4, hl2⟩ := ih b mid.1 mid.2.1 mid.2.2 res hres
      refine ⟨cs1 ++ cs2, ?_, ?_, .cat hl1 hl2⟩
      · rw [h3, h1]; simp
      · rw [h2, h4]; simp
    | alt a b =>
      simp only [mr, List.mem_append] at h
      rcases h with h | h
      · obtain ⟨cs, h1, h2, hl⟩ := ih a pre rem caps res h
        exact ⟨cs, h1, h2, .altL hl⟩
      · obtain ⟨cs, h1, h2, hl⟩ := ih b pre rem caps res h
        exact ⟨cs, h1, h2, .altR hl⟩
    | opt a =>
      simp only [mr, List.mem_append, List.mem_singleton] at h
      rcases h with h | h
      · obtain ⟨cs, h1, h2, hl⟩ := ih a pre rem caps res h
        exact ⟨cs, h1, h2, .optSome hl⟩
      · subst h
        exact ⟨[], by simp, by simp, .optNone⟩
    | star a =>
      simp only [mr, List.mem_append, List.mem_flatMap, List.mem_filter,
        List.mem_singleton] at h
      rcases h with ⟨mid, ⟨hmid, _⟩, hres⟩ | h
      · obtain ⟨cs1, h1, h2, hl1⟩ := ih a pre rem caps mid hmid
        obtain ⟨cs2, h3, h4, hl2⟩ := ih (.star a) mid.1 mid.2.1 mid.2.2 res hres
        refine ⟨cs1 ++ cs2, ?_, ?_, .starCons hl1 hl2⟩
        · rw [h3, h1]; simp
        · rw [h2, h4]; simp
      · subst h
        exact ⟨[], by simp, by simp, .starNil⟩
    | group i a =>
      simp only [mr, List.mem_map] at h
      obtain ⟨inner, hmem, hres⟩ := h
      obtain ⟨cs, h1, h2, hl⟩ := ih a pre rem caps inner hmem
      refine ⟨cs, ?_, ?_, .group hl⟩
      · rw [← hres]; exact h1
      · rw [← hres]; exact h2

/-- The capture added by a top-level group is exactly the text the
group consumed. -/
theorem mr_group_caps (f : Nat) (i : Nat) (a : Rx) (pre rem : List Char)
    (caps : Caps) (res : MRes) (h : res ∈ mr (f + 1) (.group i a) pre rem caps) :
    ∃ inner ∈ mr f a pre rem caps,
      res = (inner.1, inner.2.1,
        (i, (inner.1.take (inner.1.length - pre.length)).reverse) :: inner.2.2) := by
  simp only [mr, List.mem_map] at h
  obtain ⟨inner, hmem, hres⟩ := h
  exact ⟨inner, hmem, hres.symm⟩

/-- The list of decimal digit characters (the class `[0-9]`). -/
def digits10 : List Char := ['0', '1', '2', '3', '4', '5', '6', '7', '8', '9']

/-- Decimal value of a digit character's rendering. -/
theorem digitChar_toNat (d : Nat) (h : d < 10) : (digitChar d).toNat = 48 + d := by
  interval_cases d <;> decide

/-- A digit character's rendering is a digit. -/
theorem isDigitCh_digitChar (d : Nat) (h : d < 10) : isDigitCh (digitChar d) = true := by
  interval_cases d <;> decide

/-- `digitVal` inverts `digitChar` below ten. -/
theorem digitVal_digitChar (d : Nat) (h : d < 10) : digitVal (digitChar d) = d := by
  interval_cases d <;> decide

/-- A digit character belongs to the class `[0-9]`. -/
theorem digit_mem_digits10 (c : Char) (h : isDigitCh c = true) :
    digits10.contains c = true := by
  simp only [isDigitCh, Bool.and_eq_true, decide_eq_true_eq] at h
  obtain ⟨h1, h2⟩ := h
  have hc : c = Char.ofNat c.toNat := (Char.ofNat_toNat c).symm
  interval_cases hn : c.toNat <;> rw [hc] <;> decide

/-- A member of the class `[0-9]` is a digit. -/
theorem mem_digits10_digit (c : Char) (h : digits10.contains c = true) :
    isDigitCh c = true := by
  simp only [digits10, List.contains_cons, Bool.or_eq_true, beq_iff_eq,
    List.contains_nil] at h
  rcases h with h | h | h | h | h | h | h | h | h | h | h <;> first
    | (subst h; decide)
    | simp at h

/-- All characters of `natCharsAux` are digits. -/
theorem natCharsAux_digits (fuel n : Nat) : (natCharsAux fuel n).all isDigitCh = true := by
  induction fuel generalizing n with
  | zero => rfl
  | succ f ih =>
    cases n with
    | zero => rfl
    | succ m =>
      rw [natCharsAux]
      · simp only [List.all_append, Bool.and_eq_true]
        exact ⟨ih _, by simp [isDigitCh_digitChar _ (Nat.mod_lt _ (by omega))]⟩
      · omega

/-- All characters of `natChars` are digits. -/
theorem natChars_digits (n : Nat) : (natChars n).all isDigitCh = true := by
  rw [natChars]
  split
  · decide
  · exact natCharsAux_digits _ _

/-- `natCharsAux` is independent of the fuel once it covers the
number. -/
theorem natCharsAux_fuel (f g n : Nat) (hf : n ≤ f) (hg : n ≤ g) :
    natCharsAux f n = natCharsAux g n := by
  induction n using Nat.strong_induction_on generalizing f g with
  | _ n ih =>
    cases n with
    | zero => cases f <;> cases g <;> rfl
    | succ m =>
      obtain ⟨f', rfl⟩ : ∃ f', f = f' + 1 := ⟨f - 1, by omega⟩
      obtain ⟨g', rfl⟩ : ∃ g', g = g' + 1 := ⟨g - 1, by omega⟩
      rw [natCharsAux, natCharsAux]
      · rw [ih ((m + 1) / 10) (by omega) f' g' (by omega) (by omega)]
      · omega
      · omega

/-- `parseDigits` over an appended digit. -/
theorem parseDigits_append (l : List Char) (c : Char) :
    parseDigits (l ++ [c]) = 10 * parseDigits l + digitVal c := by
  simp [parseDigits, List.foldl_append]

/-- `parseDigits` inverts `natCharsAux`. -/
theorem parseDigits_natCharsAux (f n : Nat) (h : n ≤ f) :
    parseDigits (natCharsAux f n) = n := by
  induction n using Nat.strong_induction_on generalizing f with
  | _ n ih =>
    cases n with
    | zero => cases f <;> rfl
    | succ m =>
      obtain ⟨f', rfl⟩ : ∃ f', f = f' + 1 := ⟨f - 1, by omega⟩
      rw [natCharsAux]
      · rw [parseDigits_append,
          ih ((m + 1) / 10) (by omega) f' (by omega),
          digitVal_digitChar _ (Nat.mod_lt _ (by omega))]
        omega
      · omega

/-- `parseDigits` inverts `natChars`. -/
theorem parseDigits_natChars (n : Nat) : parseDigits (natChars n) = n := by
  rw [natChars]
  split
  · simp_all [parseDigits, digitVal]
  · exact parseDigits_natCharsAux _ _ (by omega)

/-- For positive `n`, `natCharsAux` starts with a nonzero digit. -/
theorem natCharsAux_head (f n : Nat) (h1 : 1 ≤ n) (h2 : n ≤ f) :
    ∃ c ds, natCharsAux f n = c :: ds ∧ 49 ≤ c.toNat ∧ c.toNat ≤ 57 := by
  induction n using Nat.strong_induction_on generalizing f with
  | _ n ih =>
    obtain ⟨f', rfl⟩ : ∃ f', f = f' + 1 := ⟨f - 1, by omega⟩
    obtain ⟨m, rfl⟩ : ∃ m, n = m + 1 := ⟨n - 1, by omega⟩
    rw [natCharsAux]
    · by_cases hq : (m + 1) / 10 = 0
      · refine ⟨digitChar ((m + 1) % 10), [], ?_, ?_, ?_⟩
        · rw [hq]
          cases f' <;> simp [natCharsAux]
        · rw [digitChar_toNat _ (Nat.mod_lt _ (by omega))]
          omega
        · rw [digitChar_toNat _ (Nat.mod_lt _ (by omega))]
          omega
      · obtain ⟨c, ds, hcds, hc1, hc2⟩ :=
          ih ((m + 1) / 10) (by omega) f' (by omega) (by omega)
        exact ⟨c, ds ++ [digitChar ((m + 1) % 10)], by rw [hcds]; rfl, hc1, hc2⟩
    · omega

/-- For positive `n`, `natChars` starts with a nonzero digit. -/
theorem natChars_head (n : Nat) (h : 1 ≤ n) :
    ∃ c ds, natChars n = c :: ds ∧ 49 ≤ c.toNat ∧ c.toNat ≤ 57 ∧
      ds.all isDigitCh = true := by
  obtain ⟨c, ds, hcds, hc1, hc2⟩ := natCharsAux_head (n + 1) n h (by omega)
  refine ⟨c, ds, ?_, hc1, hc2, ?_⟩
  · rw [natChars, if_neg (by omega)]; exact hcds
  · have := natCharsAux_digits (n + 1) n
    rw [hcds] at this
    simp only [List.all_cons, Bool.and_eq_true] at this
    exact this.2

/-- `natChars` is never empty. -/
theorem natChars_ne_nil (n : Nat) : natChars n ≠ [] := by
  rw [natChars]
  split
  · simp
  · obtain ⟨c, ds, hcds, _, _⟩ := natCharsAux_head (n + 1) n (by omega) (by omega)
    rw [hcds]; simp

/-- Characters consumed under a starred pattern all come from matches
of the body. -/
theorem rxLang_star_all (r : Rx) (l : List Char) (h : RxLang r l) :
    ∀ (a : Rx), r = .star a →
    ∀ (P : Char → Prop), (∀ l', RxLang a l' → ∀ c ∈ l', P c) → ∀ c ∈ l, P c := by
  induction h with
  | starNil =>
    intro a hr P hP c hc
    simp at hc
  | starCons h1 h2 ih1 ih2 =>
    intro a' hr P hP c hc
    injection hr with ha
    subst ha
    rcases List.mem_append.mp hc with hc | hc
    · exact hP _ h1 c hc
    · exact ih2 _ rfl P hP c hc
  | eps => intro a hr; exact absurd hr (by simp)
  | cls _ => intro a hr; exact absurd hr (by simp)
  | lookbehind => intro a hr; exact absurd hr (by simp)
  | cat _ _ _ _ => intro a hr; exact absurd hr (by simp)
  | altL _ _ => intro a hr; exact absurd hr (by simp)
  | altR _ _ => intro a hr; exact absurd hr (by simp)
  | optSome _ _ => intro a hr; exact absurd hr (by simp)
  | optNone => intro a hr; exact absurd hr (by simp)
  | group _ _ => intro a hr; exact absurd hr (by simp)

/-- Inversion for the language of a character class. -/
theorem rxLang_cls_inv {cs : List Char} {neg : Bool} {l : List Char}
    (h : RxLang (.cls cs neg) l) :
    ∃ c, l = [c] ∧ (cs.contains c != neg) = true := by
  cases h with
  | cls hc => exact ⟨_, rfl, hc⟩

/-- Whatever the integer pattern `0|[1-9][0-9]*` consumes is a
nonempty string of digits. -/
theorem rxInt_lang_shape (l : List Char) (h : RxLang rxInt l) :
    l ≠ [] ∧ l.all isDigitCh = true := by
  have h' : RxLang (Rx.alt (Rx.cls ['0'] false)
      (Rx.cat (Rx.cls ['1', '2', '3', '4', '5', '6', '7', '8', '9'] false)
        (Rx.star (Rx.cls ['0', '1', '2', '3', '4', '5', '6', '7', '8', '9'] false)))) l := h
  cases h' with
  | altL h1 =>
    obtain ⟨c, rfl, hc⟩ := rxLang_cls_inv h1
    have hc' : c = '0' := by simpa using hc
    subst hc'
    exact ⟨by simp, by decide⟩
  | altR h1 =>
    cases h1 with
    | @cat _ _ l1 l2 ha hb =>
      obtain ⟨c, rfl, hc⟩ := rxLang_cls_inv ha
      refine ?_
      · have hdig1 : isDigitCh c = true := by
          have h9 : (['1', '2', '3', '4', '5', '6', '7', '8', '9'].contains c) = true := by
            simpa using hc
          simp only [List.contains_cons, Bool.or_eq_true, beq_iff_eq,
            List.contains_nil] at h9
          rcases h9 with h | h | h | h | h | h | h | h | h | h <;> first
            | (subst h; decide)
            | simp at h
        have hdig2 : ∀ c ∈ l2, isDigitCh c = true := by
          intro c2 hc2
          refine rxLang_star_all _ _ hb _ rfl (fun c => isDigitCh c = true) ?_ c2 hc2
          intro l' hl' c3 hc3
          obtain ⟨c4, rfl, hcc⟩ := rxLang_cls_inv hl'
          simp only [List.mem_singleton] at hc3
          subst hc3
          have hmem : digits10.contains c3 = true := by
            simpa [digits10] using hcc
          exact mem_digits10_digit _ hmem
        constructor
        · simp
        · simp only [List.all_append, List.all_cons, Bool.and_eq_true]
          exact ⟨⟨hdig1, by simp⟩, List.all_eq_true.mpr hdig2⟩

/-- `int()` of a nonempty digit string succeeds with its value. -/
theorem pyIntOfChars_digits (cs : List Char) (h1 : cs ≠ [])
    (h2 : cs.all isDigitCh = true) :
    pyIntOfChars cs = .ok (parseDigits cs : Int) := by
  cases cs with
  | nil => exact absurd rfl h1
  | cons c rest =>
    simp only [List.all_cons, Bool.and_eq_true] at h2
    obtain ⟨hc, hrest⟩ := h2
    have hcn : 47 < c.toNat ∧ c.toNat < 58 := by
      simpa [isDigitCh] using hc
    rw [pyIntOfChars]
    rw [if_neg (by
      intro hh
      subst hh
      simp at hcn)]
    rw [if_neg (by
      intro hh
      subst hh
      simp at hcn)]
    rw [if_pos (by simp [hc, hrest])]

/-- The fuel picked by `reFullMatch` is at least two. -/
theorem mrFuel_ge_two (r : Rx) (s : List Char) : 2 ≤ mrFuel r s := by
  have h1 : 2 ≤ s.length + 2 := by omega
  have h2 : 2 ≤ rxSize r + 2 := by omega
  calc 2 = 2 * 1 := rfl
    _ ≤ (s.length + 2) * (rxSize r + 2) := Nat.mul_le_mul (by omega) (by omega)

/-- A successful anchored match of the single default integer field
captures a nonempty string of digits for field 0. -/
theorem reFullMatch_default_caps (s : List Char) (caps : Caps)
    (h : reFullMatch (fieldGroups 0 [DEFAULT_SEGMENT_FIELD]) s = some caps) :
    ∃ cs, capsLookup caps 0 = some cs ∧ cs ≠ [] ∧ cs.all isDigitCh = true := by
  have hr : fieldGroups 0 [DEFAULT_SEGMENT_FIELD] =
      Rx.cat (Rx.group 0 rxInt) Rx.eps := rfl
  rw [reFullMatch] at h
  obtain ⟨F2, hF⟩ : ∃ F2, mrFuel (fieldGroups 0 [DEFAULT_SEGMENT_FIELD]) s = F2 + 2 :=
    ⟨mrFuel (fieldGroups 0 [DEFAULT_SEGMENT_FIELD]) s - 2, by
      have := mrFuel_ge_two (fieldGroups 0 [DEFAULT_SEGMENT_FIELD]) s
      omega⟩
  rw [hF, hr] at h
  rcases hfl : (mr (F2 + 2) (Rx.cat (Rx.group 0 rxInt) Rx.eps) [] s []).filter
      (fun res => res.2.1.isEmpty) with _ | ⟨res, rest⟩
  · rw [hfl] at h; simp at h
  · rw [hfl] at h
    have hcaps : caps = res.2.2 := by
      simp only [List.head?_cons] at h
      cases h
      rfl
    have hresmem : res ∈ (mr (F2 + 2) (Rx.cat (Rx.group 0 rxInt) Rx.eps) [] s []).filter
        (fun res => res.2.1.isEmpty) := by
      rw [hfl]
      exact List.mem_cons_self _ _
    obtain ⟨hmem, hempty⟩ := List.mem_filter.mp hresmem
    have hmem1 : res ∈ (mr (F2 + 1) (Rx.group 0 rxInt) [] s []).flatMap
        (fun st => mr (F2 + 1) Rx.eps st.1 st.2.1 st.2.2) := hmem
    obtain ⟨mid, hmid, hres⟩ := List.mem_flatMap.mp hmem1
    have hres' : res = mid := by
      have heps : mr (F2 + 1) Rx.eps mid.1 mid.2.1 mid.2.2 =
          [(mid.1, mid.2.1, mid.2.2)] := rfl
      rw [heps] at hres
      simp only [List.mem_singleton] at hres
      rw [hres]
    subst hres'
    obtain ⟨inner, hinner, hmid'⟩ := mr_group_caps F2 0 rxInt [] s [] res hmid
    obtain ⟨cs, h1, h2, hlang⟩ := mr_sound F2 rxInt [] s [] inner hinner
    obtain ⟨hne, hdig⟩ := rxInt_lang_shape cs hlang
    have hcap : (inner.1.take (inner.1.length - ([] : List Char).length)).reverse = cs := by
      rw [h1]
      simp only [List.append_nil, List.length_nil, Nat.sub_zero]
      rw [show cs.reverse.length = cs.length by simp]
      rw [show cs.length = cs.reverse.length by simp, List.take_length,
        List.reverse_reverse]
    refine ⟨cs, ?_, hne, hdig⟩
    rw [hcaps, hmid']
    simp only [hcap]
    rfl

/-- Inversion for a successful `Except` bind. -/
theorem bindOkInv {α β : Type} {E : Except PyErr α} {f : α → Except PyErr β} {w : β}
    (h : (E >>= f) = .ok w) : ∃ a, E = .ok a ∧ f a = .ok w := by
  cases E with
  | error e => cases h
  | ok a => exact ⟨a, rfl, h⟩

/-- A successful string validation against the single default integer
field yields a nonnegative integer. -/
theorem validateString_default_shape (vs : String) (w : PyVal)
    (h : validateString vs [DEFAULT_SEGMENT_FIELD] = .ok w) :
    ∃ n : Nat, w = .int (n : Int) := by
  rw [validateString] at h
  rcases hm : reFullMatch (fieldGroups 0 [DEFAULT_SEGMENT_FIELD]) vs.data with _ | caps
  · simp [hm] at h
  · simp only [hm] at h
    obtain ⟨cs, hcap, hne, hdig⟩ := reFullMatch_default_caps vs.data caps hm
    have hstep : decodeFields caps 0 [DEFAULT_SEGMENT_FIELD] =
        .ok [.int (parseDigits cs : Int)] := by
      have hie : cs.isEmpty = false := by simp [List.isEmpty_iff, hne]
      have hconv : fieldConv FieldType.int (.str (String.mk cs)) =
          .ok (.int (parseDigits cs : Int)) := by
        have hc0 : fieldConv FieldType.int (.str (String.mk cs)) =
            (pyIntOfChars cs).map FVal.int := rfl
        rw [hc0, pyIntOfChars_digits cs hne hdig]
        rfl
      simp [decodeFields, hcap, hie, DEFAULT_SEGMENT_FIELD, hconv]
    rw [hstep] at h
    simp only [okBind, purePyOk] at h
    cases h
    exact ⟨parseDigits cs, rfl⟩

/-- A successful validation by the default segment definition yields a
nonnegative integer (the raw values of the implicit unbounded scheme
are nonnegative ints). -/
theorem validate_default_shape (v w : PyVal)
    (h : DEFAULT_SEGMENT_DEFINITION.validate_value v = .ok w) :
    ∃ n : Nat, w = .int (n : Int) := by
  rw [SegmentDefinition.validate_value] at h
  by_cases hn : v.isNone = true
  · rw [if_pos hn] at h
    simp [DEFAULT_SEGMENT_DEFINITION, PyVal.isNone] at h
  · rw [if_neg hn] at h
    rw [validateValueRaw] at h
    obtain ⟨s, _, htail⟩ := bindOkInv h
    exact validateString_default_shape s w htail

/-- A digit belongs to the class `[1-9]` when its code is in
`[49, 57]`. -/
theorem mem_digits19 (c : Char) (h1 : 49 ≤ c.toNat) (h2 : c.toNat ≤ 57) :
    (['1', '2', '3', '4', '5', '6', '7', '8', '9'].contains c) = true := by
  have hc : c = Char.ofNat c.toNat := (Char.ofNat_toNat c).symm
  interval_cases hn : c.toNat <;> rw [hc] <;> decide

/-- A character with code in `[49, 57]` is not `'0'`. -/
theorem ne_zero_of_code (c : Char) (h1 : 49 ≤ c.toNat) :
    (['0'].contains c) = false := by
  rcases h : (['0'].contains c) with _ | _
  · rfl
  · exfalso
    have hc0 : c = '0' := by
      simp only [List.contains_cons, List.contains_nil, Bool.or_false,
        beq_iff_eq] at h
      exact h
    subst hc0
    simp at h1

/-- The greedy star over the digit class consumes an all-digit
remainder whole, as its first alternative. -/
theorem mr_star_digits (ds : List Char) (hds : ds.all isDigitCh = true) :
    ∀ (fuel : Nat) (pre : List Char) (caps : Caps), ds.length + 1 ≤ fuel →
      (mr fuel (.star (.cls digits10 false)) pre ds caps).head? =
        some (ds.reverse ++ pre, [], caps) := by
  induction ds with
  | nil =>
    intro fuel pre caps hf
    obtain ⟨f, rfl⟩ : ∃ f, fuel = f + 1 := ⟨fuel - 1, by omega⟩
    have hbody : mr f (.cls digits10 false) pre [] caps = [] := by
      cases f <;> rfl
    rw [mr, hbody]
    rfl
  | cons d rest ih =>
    intro fuel pre caps hf
    simp only [List.all_cons, Bool.and_eq_true] at hds
    obtain ⟨hd, hrest⟩ := hds
    obtain ⟨f, rfl⟩ : ∃ f, fuel = f + 1 := ⟨fuel - 1, by omega⟩
    obtain ⟨g, rfl⟩ : ∃ g, f = g + 1 := ⟨f - 1, by simp at hf; omega⟩
    have hbody : mr (g + 1) (.cls digits10 false) pre (d :: rest) caps =
        [(d :: pre, rest, caps)] := by
      rw [mr]
      rw [if_pos (by rw [digit_mem_digits10 d hd]; rfl)]
    rw [mr, hbody]
    rw [List.filter_cons_of_pos (by simp)]
    simp only [List.filter_nil, List.flatMap_cons, List.flatMap_nil, List.append_nil]
    rw [List.head?_append]
    rw [ih hrest (g + 1) (d :: pre) caps
      (by simp only [List.length_cons] at hf; omega)]
    simp

/-- The integer pattern matches the string `0` whole, as its first
full match. -/
theorem mr_rxInt_zero (fuel : Nat) (pre : List Char) (caps : Caps)
    (hf : 2 ≤ fuel) :
    (mr fuel rxInt pre ['0'] caps).head? = some ('0' :: pre, [], caps) := by
  obtain ⟨f, rfl⟩ : ∃ f, fuel = f + 1 := ⟨fuel - 1, by omega⟩
  obtain ⟨g, rfl⟩ : ∃ g, f = g + 1 := ⟨f - 1, by omega⟩
  have hz : mr (g + 1) (Rx.cls ['0'] false) pre ['0'] caps =
      [('0' :: pre, [], caps)] := by
    rw [mr]
    rw [if_pos (by decide)]
  rw [show rxInt = Rx.alt (Rx.cls ['0'] false)
    (Rx.cat (Rx.cls ['1', '2', '3', '4', '5', '6', '7', '8', '9'] false)
      (Rx.star (Rx.cls ['0', '1', '2', '3', '4', '5', '6', '7', '8', '9'] false)))
    from rfl]
  rw [mr, hz]
  rfl

/-- The integer pattern matches a canonical positive decimal string
whole, as its first full match. -/
theorem mr_rxInt_pos (c : Char) (ds : List Char) (h1 : 49 ≤ c.toNat)
    (h2 : c.toNat ≤ 57) (hds : ds.all isDigitCh = true)
    (fuel : Nat) (pre : List Char) (caps : Caps) (hf : ds.length + 3 ≤ fuel) :
    (mr fuel rxInt pre (c :: ds) caps).head? =
      some ((c :: ds).reverse ++ pre, [], caps) := by
  obtain ⟨f, rfl⟩ : ∃ f, fuel = f + 1 := ⟨fuel - 1, by omega⟩
  obtain ⟨g, rfl⟩ : ∃ g, f = g + 1 := ⟨f - 1, by omega⟩
  have hz : mr (g + 1) (Rx.cls ['0'] false) pre (c :: ds) caps = [] := by
    rw [mr]
    rw [if_neg (by rw [ne_zero_of_code c h1]; simp)]
  have h19 : mr g (Rx.cls ['1', '2', '3', '4', '5', '6', '7', '8', '9'] false)
      pre (c :: ds) caps = [(c :: pre, ds, caps)] := by
    obtain ⟨e, rfl⟩ : ∃ e, g = e + 1 := ⟨g - 1, by omega⟩
    rw [mr]
    rw [if_pos (by rw [mem_digits19 c h1 h2]; rfl)]
  rw [show rxInt = Rx.alt (Rx.cls ['0'] false)
    (Rx.cat (Rx.cls ['1', '2', '3', '4', '5', '6', '7', '8', '9'] false)
      (Rx.star (Rx.cls ['0', '1', '2', '3', '4', '5', '6', '7', '8', '9'] false)))
    from rfl]
  rw [mr, hz]
  rw [show mr (g + 1)
      (Rx.cat (Rx.cls ['1', '2', '3', '4', '5', '6', '7', '8', '9'] false)
        (Rx.star (Rx.cls ['0', '1', '2', '3', '4', '5', '6', '7', '8', '9'] false)))
      pre (c :: ds) caps =
    (mr g (Rx.cls ['1', '2', '3', '4', '5', '6', '7', '8', '9'] false)
        pre (c :: ds) caps).flatMap
      (fun res => mr g (Rx.star (Rx.cls ['0', '1', '2', '3', '4', '5', '6', '7', '8', '9'] false))
        res.1 res.2.1 res.2.2) from rfl]
  rw [h19]
  simp only [List.flatMap_cons, List.flatMap_nil, List.append_nil, List.nil_append]
  have hstar := mr_star_digits ds hds g (c :: pre) caps (by omega)
  rw [show (['0', '1', '2', '3', '4', '5', '6', '7', '8', '9'] : List Char) = digits10
    from rfl] at *
  rw [hstar]
  simp

/-- The anchored single default integer field fully matches a
canonical decimal string, capturing it whole for field 0. -/
theorem reFullMatch_canon (n : Nat) :
    reFullMatch (fieldGroups 0 [DEFAULT_SEGMENT_FIELD]) (natChars n) =
      some [(0, natChars n)] := by
  have hr : fieldGroups 0 [DEFAULT_SEGMENT_FIELD] =
      Rx.cat (Rx.group 0 rxInt) Rx.eps := rfl
  rw [reFullMatch, hr]
  set s := natChars n with hs
  rw [show mrFuel (Rx.cat (Rx.group 0 rxInt) Rx.eps) s = (s.length + 2) * 11 from rfl]
  obtain ⟨F2, hF1, hF2⟩ : ∃ F2, (s.length + 2) * 11 = F2 + 2 ∧ s.length + 4 ≤ F2 :=
    ⟨(s.length + 2) * 11 - 2, by omega, by omega⟩
  rw [hF1]
  have hcat : mr (F2 + 2) (Rx.cat (Rx.group 0 rxInt) Rx.eps) [] s [] =
      (mr (F2 + 1) (Rx.group 0 rxInt) [] s []).flatMap
        (fun st => mr (F2 + 1) Rx.eps st.1 st.2.1 st.2.2) := rfl
  have heps : ∀ l : List MRes,
      (l.flatMap fun st => mr (F2 + 1) Rx.eps st.1 st.2.1 st.2.2) = l := by
    intro l
    induction l with
    | nil => rfl
    | cons x xs ih =>
      simp only [List.flatMap_cons, ih]
      rfl
  rw [hcat, heps]
  have hgrp : mr (F2 + 1) (Rx.group 0 rxInt) [] s [] =
      (mr F2 rxInt [] s []).map (fun res =>
        (res.1, res.2.1,
          (0, (res.1.take (res.1.length - ([] : List Char).length)).reverse)
            :: res.2.2)) := rfl
  rw [hgrp]
  have hhead : (mr F2 rxInt [] s []).head? = some (s.reverse, [], []) := by
    by_cases hn0 : n = 0
    · subst hn0
      have hs0 : s = ['0'] := rfl
      rw [hs0]
      exact mr_rxInt_zero F2 [] [] (by rw [hs0] at hF2; simp at hF2; omega)
    · obtain ⟨c, ds, hcds, h1, h2, hdig⟩ := natChars_head n (by omega)
      rw [hs, hcds]
      have hlen : s.length = ds.length + 1 := by rw [hs, hcds]; rfl
      have := mr_rxInt_pos c ds h1 h2 hdig F2 [] [] (by omega)
      simpa using this
  rcases hl : mr F2 rxInt [] s [] with _ | ⟨x0, xs⟩
  · rw [hl] at hhead; cases hhead
  · rw [hl] at hhead
    simp only [List.head?_cons] at hhead
    cases hhead
    simp only [List.map_cons]
    rw [List.filter_cons_of_pos (by simp)]
    simp only [List.head?_cons, Option.map_some]
    simp only [List.length_nil, Nat.sub_zero]
    rw [List.take_length, List.reverse_reverse]
    rfl

/-- Validation of the canonical decimal string of `n` by the default
segment definition yields `n`. -/
theorem validate_default_canon (n : Nat) :
    DEFAULT_SEGMENT_DEFINITION.validate_value (.str (String.mk (natChars n))) =
      .ok (.int (n : Int)) := by
  rw [SegmentDefinition.validate_value]
  rw [if_neg (by simp [PyVal.isNone])]
  rw [validateValueRaw]
  have hvs : valueStringOf (.str (String.mk (natChars n)))
      DEFAULT_SEGMENT_DEFINITION.fields = .ok (String.mk (natChars n)) := rfl
  rw [hvs, okBind]
  rw [validateString]
  have hdata : (String.mk (natChars n)).data = natChars n := rfl
  rw [show DEFAULT_SEGMENT_DEFINITION.fields = [DEFAULT_SEGMENT_FIELD] from rfl]
  rw [hdata, reFullMatch_canon n]
  have hne := natChars_ne_nil n
  have hdig := natChars_digits n
  have hie : (natChars n).isEmpty = false := by simp [List.isEmpty_iff, hne]
  have hcap : capsLookup [(0, natChars n)] 0 = some (natChars n) := rfl
  have hconv : fieldConv FieldType.int (.str (String.mk (natChars n))) =
      .ok (.int (parseDigits (natChars n) : Int)) := by
    have hc0 : fieldConv FieldType.int (.str (String.mk (natChars n))) =
        (pyIntOfChars (natChars n)).map FVal.int := rfl
    rw [hc0, pyIntOfChars_digits _ hne hdig]
    rfl
  have hdec : decodeFields [(0, natChars n)] 0 [DEFAULT_SEGMENT_FIELD] =
      .ok [.int (parseDigits (natChars n) : Int)] := by
    simp [decodeFields, hcap, hie, DEFAULT_SEGMENT_FIELD, hconv]
  simp only [hdec, okBind, purePyOk, parseDigits_natChars]
  rfl

/-- Dot-joining of rendered segment pieces (the shape produced by
default rendering of the unbounded scheme). -/
def joinDot : List (List Char) → List Char
  | [] => []
  | [p] => p
  | p :: q :: qs => p ++ '.' :: joinDot (q :: qs)

/-- The digit characters of a nonnegative int raw value. -/
def intCharsOf : PyVal → List Char
  | .int n => natChars n.toNat
  | _ => []

/-- `splitChar` never returns an empty list of pieces. -/
theorem splitChar_ne_nil (sep : Char) (l : List Char) : splitChar sep l ≠ [] := by
  cases l with
  | nil => simp [splitChar]
  | cons c rest =>
    rw [splitChar]
    rcases h : splitChar sep rest with _ | ⟨p, ps⟩
    · simp
    · by_cases hc : c = sep <;> simp [hc]

/-- Splitting a separator-free string yields the single piece. -/
theorem splitChar_no_sep (sep : Char) (p : List Char) (h : sep ∉ p) :
    splitChar sep p = [p] := by
  induction p with
  | nil => rfl
  | cons c rest ih =>
    simp only [List.mem_cons, not_or] at h
    obtain ⟨h1, h2⟩ := h
    simp only [splitChar, ih h2]
    rw [if_neg (fun hh => h1 hh.symm)]

/-- Splitting after a separator-free prefix peels off that prefix. -/
theorem splitChar_append (sep : Char) (p rest : List Char) (h : sep ∉ p) :
    splitChar sep (p ++ sep :: rest) = p :: splitChar sep rest := by
  induction p with
  | nil =>
    rw [List.nil_append, splitChar]
    rcases hr : splitChar sep rest with _ | ⟨q, qs⟩
    · exact absurd hr (splitChar_ne_nil sep rest)
    · show (if sep = sep then [] :: q :: qs else (sep :: q) :: qs) = [] :: q :: qs
      rw [if_pos rfl]
  | cons c p' ih =>
    simp only [List.mem_cons, not_or] at h
    obtain ⟨h1, h2⟩ := h
    rw [List.cons_append]
    simp only [splitChar, ih h2]
    rw [if_neg (fun hh => h1 hh.symm)]

/-- Splitting inverts dot-joining of dot-free pieces. -/
theorem splitChar_joinDot (parts : List (List Char)) (hne : parts ≠ [])
    (hsep : ∀ p ∈ parts, '.' ∉ p) :
    splitChar '.' (joinDot parts) = parts := by
  induction parts with
  | nil => exact absurd rfl hne
  | cons p ps ih =>
    cases ps with
    | nil =>
      rw [joinDot]
      exact splitChar_no_sep '.' p (hsep p (List.mem_cons_self _ _))
    | cons q qs =>
      rw [joinDot, splitChar_append '.' p _ (hsep p (List.mem_cons_self _ _))]
      rw [ih (List.cons_ne_nil q qs) (fun r hr => hsep r (List.mem_cons_of_mem _ hr))]

/-- A digit string contains no dot. -/
theorem dot_not_mem_digits (cs : List Char) (h : cs.all isDigitCh = true) :
    '.' ∉ cs := by
  intro hmem
  have := List.all_eq_true.mp h _ hmem
  simp [isDigitCh] at this

/-- Dot-joining after appending one more piece. -/
theorem joinDot_concat (parts : List (List Char)) (p : List Char) (h : parts ≠ []) :
    joinDot (parts ++ [p]) = joinDot parts ++ '.' :: p := by
  induction parts with
  | nil => exact absurd rfl h
  | cons x xs ih =>
    cases xs with
    | nil => rfl
    | cons y ys =>
      rw [show (x :: y :: ys) ++ [p] = x :: ((y :: ys) ++ [p]) from rfl]
      rw [show (y :: ys) ++ [p] = y :: (ys ++ [p]) from rfl]
      rw [joinDot]
      rw [show y :: (ys ++ [p]) = (y :: ys) ++ [p] from rfl]
      rw [ih (List.cons_ne_nil y ys)]
      rw [joinDot]
      simp

/-- Dot-joining of nonempty pieces is nonempty. -/
theorem joinDot_ne_nil (parts : List (List Char)) (h : parts ≠ [])
    (hp : ∀ p ∈ parts, p ≠ []) : joinDot parts ≠ [] := by
  cases parts with
  | nil => exact absurd rfl h
  | cons x xs =>
    cases xs with
    | nil => exact hp x (List.mem_cons_self _ _)
    | cons y ys =>
      rw [joinDot]
      simp

/-- Default rendering of an unbounded-scheme version whose raw values
are nonnegative ints is the dot-joined decimal rendering of its
values. -/
theorem render_unbounded (raw : List PyVal)
    (hsh : ∀ v ∈ raw, ∃ n : Nat, v = .int (n : Int)) :
    versionStr [] raw = String.mk (joinDot (raw.map intCharsOf)) := by
  have hmem : ∀ i, i < raw.length → raw.getD i PyVal.none ∈ raw := by
    intro i hi
    rw [List.getD_eq_getElem _ _ hi]
    exact List.getElem_mem _
  have hdec : ∀ i, i < raw.length →
      renderDecision [] raw [] ([] ++ [renderExcludeDefaultsCallback []]) i = true := by
    intro i hi
    obtain ⟨n, hn⟩ := hsh _ (hmem i hi)
    have hcb : renderExcludeDefaultsCallback [] raw i = false := by
      rw [renderExcludeDefaultsCallback, if_pos hi]
      rw [if_pos ?hany]
      case hany =>
        simp only [List.any_eq_true, List.mem_range, Bool.and_eq_true, decide_eq_true_eq,
          Bool.not_eq_true']
        exact ⟨i, hi, le_refl i, by rw [hn]; rfl⟩
    have hck : (cookedAt [] raw i).isNone = false := by
      rw [cookedAt, hn]
      rfl
    rw [renderDecision]
    rw [if_neg (by rw [hck]; simp [segDefAt, DEFAULT_SEGMENT_DEFINITION])]
    rw [if_neg (by simp)]
    simp [hcb]
  have hpiece : ∀ i, i < raw.length →
      (segDefAt [] i).render (cookedAt [] raw i) =
        String.mk (intCharsOf (raw.getD i PyVal.none)) := by
    intro i hi
    obtain ⟨n, hn⟩ := hsh _ (hmem i hi)
    have hck : cookedAt [] raw i = .int (n : Int) := by
      rw [cookedAt, hn]
      rfl
    rw [hck, hn]
    show fStr (.int (n : Int)) = String.mk (intCharsOf (.int (n : Int)))
    rw [fStr, intStr, if_neg (by omega), intCharsOf]
  have hne' : ∀ i, i < raw.length → intCharsOf (raw.getD i PyVal.none) ≠ [] := by
    intro i hi
    obtain ⟨n, hn⟩ := hsh _ (hmem i hi)
    rw [hn, intCharsOf]
    simpa using natChars_ne_nil _
  have hpne : ∀ p ∈ raw.map intCharsOf, p ≠ [] := by
    intro p hp
    obtain ⟨v, hv, rfl⟩ := List.mem_map.mp hp
    obtain ⟨n, rfl⟩ := hsh _ hv
    rw [intCharsOf]
    simpa using natChars_ne_nil _
  show (List.range raw.length).foldl
      (fun result i =>
        if renderDecision [] raw [] ([] ++ [renderExcludeDefaultsCallback []]) i then
          (if result.length > 0 then result ++ (segDefAt [] i).separator else result)
            ++ (segDefAt [] i).render (cookedAt [] raw i)
        else result) ""
    = String.mk (joinDot (raw.map intCharsOf))
  have key : ∀ k, k ≤ raw.length →
      (List.range k).foldl
        (fun result i =>
          if renderDecision [] raw [] ([] ++ [renderExcludeDefaultsCallback []]) i then
            (if result.length > 0 then result ++ (segDefAt [] i).separator else result)
              ++ (segDefAt [] i).render (cookedAt [] raw i)
          else result) ""
      = String.mk (joinDot ((raw.take k).map intCharsOf)) := by
    intro k
    induction k with
    | zero => intro _; rfl
    | succ k ih =>
      intro hk1
      have hk : k < raw.length := by omega
      rw [List.range_succ, List.foldl_append, ih (by omega)]
      simp only [List.foldl_cons, List.foldl_nil]
      rw [hdec k hk, if_pos rfl]
      rw [hpiece k hk]
      have htake : raw.take (k + 1) = raw.take k ++ [raw.getD k PyVal.none] := by
        rw [List.take_succ, List.getElem?_eq_getElem hk]
        rw [List.getD_eq_getElem _ _ hk]
        rfl
      rw [htake]
      cases hkz : k with
      | zero =>
        simp only [List.take_zero, List.map_nil, List.nil_append, List.map_cons]
        rfl
      | succ k' =>
        rw [← hkz]
        have htk : (raw.take k).map intCharsOf ≠ [] := by
          intro hh
          have hc := congrArg List.length hh
          rw [List.length_map, List.length_take, List.length_nil] at hc
          omega
        have hlen : ((String.mk (joinDot ((raw.take k).map intCharsOf))).length > 0) := by
          have hjn := joinDot_ne_nil _ htk (by
            intro p hp
            obtain ⟨v, hv, rfl⟩ := List.mem_map.mp hp
            obtain ⟨n, rfl⟩ := hsh _ (List.mem_of_mem_take hv)
            rw [intCharsOf]
            simpa using natChars_ne_nil _)
          show 0 < (joinDot ((raw.take k).map intCharsOf)).length
          cases hjj : joinDot ((raw.take k).map intCharsOf) with
          | nil => exact absurd hjj hjn
          | cons a as => simp
        rw [if_pos hlen]
        rw [List.map_append]
        simp only [List.map_cons, List.map_nil]
        rw [joinDot_concat _ _ htk]
        have hsep : (segDefAt [] k).separator = "." := rfl
        rw [hsep]
        have h1 : String.mk (joinDot ((raw.take k).map intCharsOf)) ++ "." =
            String.mk (joinDot ((raw.take k).map intCharsOf) ++ ['.']) := rfl
        rw [h1]
        have h2 : ∀ (a b : List Char), String.mk a ++ String.mk b = String.mk (a ++ b) :=
          fun _ _ => rfl
        rw [h2, List.append_assoc]
        rfl
  have := key raw.length (le_refl _)
  rw [List.take_length] at this
  exact this

/-- Successful validation under the implicit scheme yields only
nonnegative int raw values. -/
theorem validateArgs_shape (l : List PyVal) : ∀ (i : Nat) (raw : List PyVal),
    validateArgs [] i l = .ok raw → ∀ v ∈ raw, ∃ n : Nat, v = .int (n : Int) := by
  induction l with
  | nil =>
    intro i raw h v hv
    rw [validateArgs] at h
    cases h
    simp at hv
  | cons x xs ih =>
    intro i raw h v hv
    rw [validateArgs] at h
    obtain ⟨w, hw, h2⟩ := bindOkInv h
    obtain ⟨ws, hws, h3⟩ := bindOkInv h2
    cases h3
    rcases List.mem_cons.mp hv with rfl | hv2
    · exact validate_default_shape x v hw
    · exact ih (i + 1) ws hws v hv2

/-- Validation preserves the number of segments. -/
theorem validateArgs_length (defs : List SegmentDefinition) (l : List PyVal) :
    ∀ (i : Nat) (raw : List PyVal),
    validateArgs defs i l = .ok raw → raw.length = l.length := by
  induction l with
  | nil =>
    intro i raw h
    rw [validateArgs] at h
    cases h
    rfl
  | cons x xs ih =>
    intro i raw h
    rw [validateArgs] at h
    obtain ⟨w, hw, h2⟩ := bindOkInv h
    obtain ⟨ws, hws, h3⟩ := bindOkInv h2
    cases h3
    simp [ih (i + 1) ws hws]

/-- Re-validation of the decimal renderings of nonnegative int raw
values reproduces them. -/
theorem validateArgs_canon (raw : List PyVal) : ∀ (i : Nat),
    (∀ v ∈ raw, ∃ n : Nat, v = .int (n : Int)) →
    validateArgs [] i (raw.map fun v => PyVal.str (String.mk (intCharsOf v))) =
      .ok raw := by
  induction raw with
  | nil => intro i _; rfl
  | cons x xs ih =>
    intro i hsh
    obtain ⟨n, rfl⟩ := hsh x (List.mem_cons_self _ _)
    simp only [List.map_cons]
    rw [validateArgs]
    have hseg : segDefAt [] i = DEFAULT_SEGMENT_DEFINITION := rfl
    have hchars : intCharsOf (.int (n : Int)) = natChars n := by
      rw [intCharsOf]
      simp
    rw [hseg, hchars, validate_default_canon n, okBind]
    rw [ih (i + 1) (fun v hv => hsh v (List.mem_cons_of_mem _ hv)), okBind]
    rfl

/-- Claim C2 (amended): for the implicit unbounded scheme of
dot-separated integer segments, constructing from valid values and
rendering with the default policy round-trips: reconstruction from the
rendered string yields an equal (indeed identical) version value.  The
general claim fails for schemes with ambiguous separators even when no
segment is omitted (see the counterexample). -/
theorem claim_C2 (l raw : List PyVal)
    (h : versionNew [] (.vals l) [] = .ok raw) :
    versionNew [] (.str (versionStr [] raw)) [] = .ok raw ∧
    versionEqSame [] raw raw = true := by
  rw [versionNew] at h
  obtain ⟨a, ha, h2⟩ := bindOkInv h
  obtain ⟨a2, ha2, h3⟩ := bindOkInv h2
  have hl : l ≠ [] := by
    intro hh
    subst hh
    rw [versionPhase1] at ha
    simp at ha
  have ha' : a = .pylist l := by
    rw [versionPhase1] at ha
    rw [if_pos (by simp)] at ha
    rw [if_neg (by simp [List.isEmpty_iff, hl])] at ha
    cases ha
    rfl
  subst ha'
  have ha2' : a2 = ArgSeq.pylist l := by
    rw [applyKwargs] at ha2
    cases ha2
    rfl
  subst ha2'
  have h3' : validateArgs [] 0 l = .ok raw := h3
  have hsh := validateArgs_shape l 0 raw h3'
  have hrawne : raw ≠ [] := by
    intro hh
    subst hh
    have := validateArgs_length [] l 0 [] h3'
    simp at this
    exact hl (List.length_eq_zero.mp this.symm)
  have hrender := render_unbounded raw hsh
  have hpne : ∀ p ∈ raw.map intCharsOf, '.' ∉ p := by
    intro p hp
    obtain ⟨v, hv, rfl⟩ := List.mem_map.mp hp
    obtain ⟨n, rfl⟩ := hsh _ hv
    rw [intCharsOf]
    have := natChars_digits ((n : Int)).toNat
    exact dot_not_mem_digits _ this
  have hmapne : raw.map intCharsOf ≠ [] := by
    intro hh
    have := congrArg List.length hh
    rw [List.length_map, List.length_nil] at this
    exact hrawne (List.length_eq_zero.mp this)
  constructor
  · rw [versionNew, hrender]
    rw [versionPhase1]
    rw [if_pos (by simp)]
    have hdata : (String.mk (joinDot (raw.map intCharsOf))).data =
        joinDot (raw.map intCharsOf) := rfl
    rw [hdata, splitChar_joinDot _ hmapne hpne]
    rw [List.map_map]
    rw [okBind, applyKwargs, okBind]
    show validateArgs [] 0
      (raw.map fun v => PyVal.str (String.mk (intCharsOf v))) = .ok raw
    exact validateArgs_canon raw 0 hsh
  · exact (pyEqList_iff_eq _ _).mpr rfl

/-- Claim C2 counterexample: under the two-segment scheme whose second
separator is empty (no segment optional or omitted), the value built
from `(1, 23)` renders as `123`, which reconstructs as `(12, 3)`; the
round trip fails. -/
theorem claim_C2_counterexample :
    versionNew twoSegEmptySepDefs (.vals [.int 1, .int 23]) [] =
      .ok [.int 1, .int 23] ∧
    versionStr twoSegEmptySepDefs [.int 1, .int 23] = "123" ∧
    versionNew twoSegEmptySepDefs (.str "123") [] = .ok [.int 12, .int 3] ∧
    versionEqSame twoSegEmptySepDefs [.int 1, .int 23] [.int 12, .int 3] = false ∧
    (twoSegEmptySepDefs.all fun d => d.required) = true :=
  ⟨rfl, rfl, rfl, rfl, rfl⟩

/-- Claim C2 witness: the amended round trip applied to the unbounded
version built from `(1, 23)`. -/
theorem claim_C2_witness :
    versionNew [] (.str (versionStr [] [.int 1, .int 23])) [] =
      .ok [.int 1, .int 23] ∧
    versionEqSame [] [.int 1, .int 23] [.int 1, .int 23] = true :=
  claim_C2 [.int 1, .int 23] [.int 1, .int 23] rfl
